import Mathlib

/-!
Verification of the tbtree snapshot core (pkg/tbtree/snapshot.go).

The file embeds, as executable Lean definitions, the data model and the
operations of the snapshot/serialization subsystem: the `Snapshot`
life-cycle (`Get`, `Ts`, `Reader`, `closedReader`, `Close`, `WriteTo`),
the node serialization protocol (`innerNode.writeTo`, `leafNode.writeTo`,
`nodeRef.writeTo`, `writeNodeRefTo`) and the byte-write helper `writeTo`.

Go byte buffers are embedded as `List Nat` (each element a byte value);
indexed buffer stores (`binary.BigEndian.PutUint32`, `copy`) are embedded
by `writeAt`, and a sequence of such stores with a running index by
`writeSeq`.  Machine integers are `Nat`/`Int` with explicit reduction
modulo 2^32 / 2^64 where the Go code casts.  Fallible operations return
`Except GoErr`.  In-place pointer mutation (the `off` field updated under
`CommitLog`) is embedded by state passing: each `writeTo` returns the
updated node alongside the offset, the total-written count and the bytes
handed to the sink.
-/

/-- Error values of the package (`ErrAlreadyClosed`, `ErrReadersNotClosed`,
`ErrIllegalArgument`, `ErrKeyNotFound`, `ErrNoMoreEntries`) together with
`ioError`, standing for an arbitrary error produced by a sink, the node
store or the owning tree. -/
inductive GoErr where
  | alreadyClosed
  | readersNotClosed
  | illegalArgument
  | keyNotFound
  | noMoreEntries
  | ioError (code : Nat)
deriving DecidableEq, Repr

/-- Node type tags (Go `iota` block). -/
def InnerNodeType : Nat := 0

/-- Root inner node tag. -/
def RootInnerNodeType : Nat := 1

/-- Leaf node tag. -/
def LeafNodeType : Nat := 2

/-- Root leaf node tag. -/
def RootLeafNodeType : Nat := 3

/-- Big-endian byte list of width `k` for the value `v` (the low `8*k`
bits of `v`, most significant byte first). -/
def beBytes : Nat → Nat → List Nat
  | 0, _ => []
  | k + 1, v => (v / 256 ^ k % 256) :: beBytes k v

/-- `binary.BigEndian.PutUint32`: the 4 big-endian bytes of `v mod 2^32`. -/
def be32 (v : Nat) : List Nat := beBytes 4 v

/-- `binary.BigEndian.PutUint64`: the 8 big-endian bytes of `v mod 2^64`. -/
def be64 (v : Nat) : List Nat := beBytes 8 v

/-- Go's `uint64(i)` conversion of an `int64`: two's-complement reduction
modulo `2^64`. -/
def u64 (i : Int) : Nat := (i % (2 ^ 64 : Int)).toNat

theorem beBytes_length (k v : Nat) : (beBytes k v).length = k := by
  induction k generalizing v with
  | zero => rfl
  | succ k ih => simp [beBytes, ih]

theorem be32_length (v : Nat) : (be32 v).length = 4 := beBytes_length 4 v

theorem be64_length (v : Nat) : (be64 v).length = 8 := beBytes_length 8 v

/-- Store `bs` into buffer `buf` starting at index `i`
(`copy(buf[i:], bs)` / a `Put` of fixed width): bytes outside the buffer
are dropped, the buffer keeps its length. -/
def writeAt (buf : List Nat) (i : Nat) (bs : List Nat) : List Nat :=
  buf.take i ++ bs.take (buf.length - i) ++ buf.drop (i + bs.length)

/-- A sequence of stores with a running index, as in the Go `writeTo`
bodies: store each piece at the current index, then advance the index by
the piece's length.  Returns the final buffer and index. -/
def writeSeq : List Nat → Nat → List (List Nat) → List Nat × Nat
  | buf, i, [] => (buf, i)
  | buf, i, p :: ps => writeSeq (writeAt buf i p) (i + p.length) ps

theorem writeAt_length (buf : List Nat) (i : Nat) (bs : List Nat) :
    (writeAt buf i bs).length = buf.length := by
  simp only [writeAt, List.length_append, List.length_take, List.length_drop]
  omega

theorem writeAt_take (buf : List Nat) (i : Nat) (bs : List Nat)
    (h : i + bs.length ≤ buf.length) :
    (writeAt buf i bs).take (i + bs.length) = buf.take i ++ bs := by
  have hbs : bs.take (buf.length - i) = bs := List.take_of_length_le (by omega)
  have hlen : (buf.take i ++ bs).length = i + bs.length := by
    simp only [List.length_append, List.length_take]
    omega
  calc (writeAt buf i bs).take (i + bs.length)
      = ((buf.take i ++ bs) ++ buf.drop (i + bs.length)).take (i + bs.length) := by
        simp [writeAt, hbs]
    _ = buf.take i ++ bs := by
        rw [List.take_append_eq_append_take, hlen]
        simp

/-- Sequential stores starting inside the buffer produce exactly the
concatenation of the pieces: the final index is the total length and the
prefix of the buffer up to it is the previous prefix followed by the
pieces joined. -/
theorem writeSeq_spec : ∀ (ps : List (List Nat)) (buf : List Nat) (i : Nat),
    i + (ps.map List.length).sum ≤ buf.length →
    (writeSeq buf i ps).2 = i + (ps.map List.length).sum ∧
    (writeSeq buf i ps).1.length = buf.length ∧
    (writeSeq buf i ps).1.take (writeSeq buf i ps).2 = buf.take i ++ ps.flatten := by
  intro ps
  induction ps with
  | nil => intro buf i h; simp [writeSeq]
  | cons p ps ih =>
    intro buf i h
    simp only [List.map_cons, List.sum_cons] at h
    have hlen : (writeAt buf i p).length = buf.length := writeAt_length buf i p
    have hle : (i + p.length) + (ps.map List.length).sum ≤ (writeAt buf i p).length := by
      rw [hlen]; omega
    obtain ⟨h1, h2, h3⟩ := ih (writeAt buf i p) (i + p.length) hle
    refine ⟨?_, ?_, ?_⟩
    · simp only [writeSeq, h1, List.map_cons, List.sum_cons]; omega
    · simp only [writeSeq, h2, hlen]
    · simp only [writeSeq, h3]
      rw [writeAt_take buf i p (by omega)]
      simp [List.append_assoc]

/-- A versioned key/value entry of a leaf node (Go `leafValue`): key and
value byte strings, the entry's timestamp and the timestamp of the prior
version of the same key. -/
structure leafValue where
  key : List Nat
  value : List Nat
  ts : Nat
  prevTs : Nat
deriving DecidableEq, Repr

/-- The node sum type (`innerNode` | `leafNode` | `nodeRef`).  Fields
`off` embed the Go `off int64` field of each variant and `res` the
`nodeRef.node` pointer (`none` = `nil`, an unresolved reference).

Modelled from the spec: the observable node properties `maxKey` and `ts`
(accessors defined outside src/, in the node implementation) are carried
as the stored fields `mKey` and `tsv`; a `nodeRef` additionally carries
its serialized size `sz`, and `mutF` embeds the mutation flag read by
`mutated()`. -/
inductive GoNode where
  | inner (nodes : List GoNode) (mutF : Bool) (off : Int) (mKey : List Nat) (tsv : Nat)
  | leaf (values : List leafValue) (mutF : Bool) (off : Int) (mKey : List Nat) (tsv : Nat)
  | ref (res : Option GoNode) (off : Int) (mKey : List Nat) (tsv : Nat) (sz : Nat)

/-- The `offset()` accessor: the node's `off` field.

Modelled from the spec: "`offset` (on-disk position once persisted, or
\"unpersisted\" sentinel)"; the accessor itself is defined outside src/. -/
def GoNode.offset : GoNode → Int
  | .inner _ _ off _ _ => off
  | .leaf _ _ off _ _ => off
  | .ref _ off _ _ _ => off

/-- The `maxKey()` accessor.

Modelled from the spec: "`maxKey` (the greatest key in the subtree)";
defined outside src/, carried here as a stored field. -/
def GoNode.maxKey : GoNode → List Nat
  | .inner _ _ _ mk _ => mk
  | .leaf _ _ _ mk _ => mk
  | .ref _ _ mk _ _ => mk

/-- The `ts()` accessor.

Modelled from the spec: "`ts` (logical/commit timestamp of the most
recent mutation in the subtree)"; defined outside src/, carried here as a
stored field. -/
def GoNode.ts : GoNode → Nat
  | .inner _ _ _ _ tv => tv
  | .leaf _ _ _ _ tv => tv
  | .ref _ _ _ tv _ => tv

/-- The `mutated()` accessor.

Modelled from the spec: "`mutated` (true if created/changed since last
persisted)" for inner and leaf nodes; a `NodeRef` is "by construction
already durable", so it reports `false`. -/
def GoNode.mutated : GoNode → Bool
  | .inner _ mutF _ _ _ => mutF
  | .leaf _ mutF _ _ _ => mutF
  | .ref _ _ _ _ _ => false

/-- Serialized byte length of an inner node's own record: tag (1) + size
field (4) + child count (4) + one child reference record
(4 + maxKeyLen + 8 + 4 + 8) per child.

Modelled from the spec: "`size` (byte length once serialized)";
`innerNode.size()` is defined outside src/. -/
def innerSize (cs : List GoNode) : Nat :=
  9 + (cs.map (fun c => 24 + (GoNode.maxKey c).length)).sum

/-- Serialized byte length of a leaf node's record: tag (1) + size field
(4) + entry count (4) + one entry record
(4 + keyLen + 4 + valueLen + 8 + 8) per entry.

Modelled from the spec: "`size` (byte length once serialized)";
`leafNode.size()` is defined outside src/. -/
def leafSize (vs : List leafValue) : Nat :=
  9 + (vs.map (fun v => 24 + v.key.length + v.value.length)).sum

/-- The `size()` accessor.

Modelled from the spec: serialized byte length; for a `nodeRef` the size
is the stored field of the reference. -/
def GoNode.size : GoNode → Nat
  | .inner cs _ _ _ _ => innerSize cs
  | .leaf vs _ _ _ _ => leafSize vs
  | .ref _ _ _ _ sz => sz

/-- The serialization configuration (`WriteOpts`). -/
structure WriteOpts where
  OnlyMutated : Bool
  BaseOffset : Int
  CommitLog : Bool
deriving DecidableEq, Repr

/-- The pieces of one child reference record as stored by
`writeNodeRefTo`: `maxKeyLen(4B) | maxKeyBytes | ts(8B) | size(4B) |
offset(8B)`. -/
def refPieces (c : GoNode) : List (List Nat) :=
  [be32 (GoNode.maxKey c).length, GoNode.maxKey c, be64 (GoNode.ts c),
   be32 (GoNode.size c), be64 (u64 (GoNode.offset c))]

/-- The pieces stored by `innerNode.writeTo` into its buffer: tag byte,
size field, child count, the child reference records, and for a root the
trailing size mirror. -/
def innerPieces (asRoot : Bool) (cs : List GoNode) : List (List Nat) :=
  [if asRoot then RootInnerNodeType else InnerNodeType] ::
    be32 (innerSize cs) :: be32 cs.length ::
    (cs.flatMap refPieces ++ if asRoot then [be32 (innerSize cs)] else [])

/-- The pieces of one leaf entry record as stored by `leafNode.writeTo`:
`keyLen(4B) | keyBytes | valueLen(4B) | valueBytes | ts(8B) |
prevTs(8B)`. -/
def entryPieces (v : leafValue) : List (List Nat) :=
  [be32 v.key.length, v.key, be32 v.value.length, v.value, be64 v.ts, be64 v.prevTs]

/-- The pieces stored by `leafNode.writeTo` into its buffer: tag byte,
size field, entry count, the entry records, and for a root the trailing
size mirror. -/
def leafPieces (asRoot : Bool) (vs : List leafValue) : List (List Nat) :=
  [if asRoot then RootLeafNodeType else LeafNodeType] ::
    be32 (leafSize vs) :: be32 vs.length ::
    (vs.flatMap entryPieces ++ if asRoot then [be32 (leafSize vs)] else [])

/-- The skip test of `nodeRef.writeTo` under `OnlyMutated`:
`n.node == nil || n.node.offset() > 0`. -/
def refSkip : Option GoNode → Bool
  | none => true
  | some nd => decide (GoNode.offset nd > 0)

mutual

/-- The `writeTo(w, asRoot, writeOpts)` methods of the three node
variants, embedded as one pure function by state passing.  Returns the
updated node (Go mutates the node in place through its pointer), the
node's resulting offset `off`, the total bytes written `tw`, and the
byte sequence handed to the sink.  The indexed stores into the
`make([]byte, size+4)` buffer are embedded by `writeSeq` over the piece
lists, and the sink receives `buf[:i]`.  Resolution of an unresolved
`nodeRef` fails: the node store is an external collaborator (modelled
from the spec: `resolve(offset) -> Node`, may fail). -/
def GoNode.writeTo (n : GoNode) (asRoot : Bool) (opts : WriteOpts) :
    Except GoErr (GoNode × Int × Int × List Nat) :=
  match n with
  | .inner cs mutF off mk tv =>
    if opts.OnlyMutated && decide (off > 0) then
      .ok (.inner cs mutF off mk tv, off, 0, [])
    else
      match writeChildren cs opts 0 with
      | .error e => .error e
      | .ok (cs2, cw, cbs) =>
        let size := innerSize cs2
        let ws := writeSeq (List.replicate (size + 4) 0) 0 (innerPieces asRoot cs2)
        let off2 := if opts.CommitLog then opts.BaseOffset + cw else off
        let tw : Int := cw + (size : Int) + (if asRoot then 4 else 0)
        .ok (.inner cs2 mutF off2 mk tv, opts.BaseOffset + cw, tw, cbs ++ ws.1.take ws.2)
  | .leaf vs mutF off mk tv =>
    if opts.OnlyMutated && decide (off > 0) then
      .ok (.leaf vs mutF off mk tv, off, 0, [])
    else
      let size := leafSize vs
      let ws := writeSeq (List.replicate (size + 4) 0) 0 (leafPieces asRoot vs)
      let off2 := if opts.CommitLog then opts.BaseOffset else off
      let tw : Int := (size : Int) + (if asRoot then 4 else 0)
      .ok (.leaf vs mutF off2 mk tv, opts.BaseOffset, tw, ws.1.take ws.2)
  | .ref res off mk tv sz =>
    if opts.OnlyMutated && refSkip res then
      .ok (.ref res off mk tv sz, off, 0, [])
    else
      match res with
      | none => .error (GoErr.ioError 0)
      | some nd =>
        match GoNode.writeTo nd asRoot opts with
        | .error e => .error e
        | .ok (nd2, o, w, bs) => .ok (.ref (some nd2) off mk tv sz, o, w, bs)

/-- The child loop of `innerNode.writeTo`: under `OnlyMutated` a child
with `mutated() == false` is skipped (and left untouched), otherwise the
child is written with `BaseOffset` advanced by the bytes written so far
(`cw`).  Returns the updated children, the final `cw` and the
concatenation of the bytes the children handed to the sink. -/
def writeChildren (cs : List GoNode) (opts : WriteOpts) (cw : Int) :
    Except GoErr (List GoNode × Int × List Nat) :=
  match cs with
  | [] => .ok ([], cw, [])
  | c :: rest =>
    if opts.OnlyMutated && !(GoNode.mutated c) then
      match writeChildren rest opts cw with
      | .error e => .error e
      | .ok (rest2, cw2, bs2) => .ok (c :: rest2, cw2, bs2)
    else
      match GoNode.writeTo c false (WriteOpts.mk opts.OnlyMutated (opts.BaseOffset + cw) opts.CommitLog) with
      | .error e => .error e
      | .ok (c2, _, w, bs) =>
        match writeChildren rest opts (cw + w) with
        | .error e => .error e
        | .ok (rest2, cw2, bs2) => .ok (c2 :: rest2, cw2, bs ++ bs2)

end


/-- One response of the sink (`io.Writer`) to a `Write` call: it accepts
the first `n` bytes of the offered slice without error, or it fails. -/
inductive WResp where
  | accept (n : Nat)
  | fail (e : GoErr)
deriving DecidableEq, Repr

/-- The loop of the byte-write helper `writeTo(buf, w)`: each iteration
calls `w.Write(buf)` — offering the FULL buffer again — adds the accepted
count to `wn`, stops with the sink's error on failure, and breaks once
`wn` equals `len(buf)`.  The sink is embedded as the list of its
responses; `sent` accumulates the bytes the sink actually received (the
first `n` bytes of each offered slice).  Result: `none` when the sink's
responses are exhausted while the loop would continue (the loop does not
terminate on its own), otherwise `some (received, err?)`. -/
def writeToLoop : List Nat → Nat → List Nat → List WResp → Option (List Nat × Option GoErr)
  | _, _, _, [] => none
  | _, _, sent, WResp.fail e :: _ => some (sent, some e)
  | buf, wn, sent, WResp.accept n :: rest =>
    let sent2 := sent ++ buf.take n
    if buf.length = wn + n then some (sent2, none)
    else writeToLoop buf (wn + n) sent2 rest

/-- The byte-write helper `writeTo(buf, w)` run against a sink with the
given response list. -/
def writeTo (buf : List Nat) (rs : List WResp) : Option (List Nat × Option GoErr) :=
  writeToLoop buf 0 [] rs

/-- Scan parameters of a reader (`ReaderSpec`). -/
structure ReaderSpec where
  initialKey : List Nat
  isPrefix : Bool
  ascOrder : Bool
deriving DecidableEq, Repr

/-- A cursor over one snapshot (Go `Reader`).  The back pointer to the
snapshot is omitted (it exists only to deregister on close, embedded here
by `Snapshot.closedReader` taking the reader's id). -/
structure Reader where
  id : Nat
  initialKey : List Nat
  isPrefix : Bool
  ascOrder : Bool
  path : List GoNode
  leafNode : GoNode
  offset : Nat
  closed : Bool

/-- The result of the descent `root.findLeafNode(initialKey, nil, nil,
ascOrder)`.

Modelled from the spec: the descent locates "the stack of inner-node
positions from root to the current leaf", the starting leaf and the
index within it; `findLeafNode` is defined outside src/. -/
structure FindRes where
  path : List GoNode
  leaf : GoNode
  offset : Nat

/-- A snapshot: the frozen root, the registry of open readers (Go
`map[int]*Reader`, embedded as an association list with map-update
semantics), the next reader id and the closed flag.  The owning tree
pointer `t` is omitted; the outcome of `t.snapshotClosed(s)` is passed to
`Close` as an argument (modelled from the spec: the owning tree is an
external collaborator whose notification may fail). -/
structure Snapshot where
  id : Nat
  root : GoNode
  readers : List (Nat × Reader)
  maxReaderID : Nat
  closed : Bool

/-- Go map assignment `m[k] = v`: replaces any entry with key `k`. -/
def mapPut (m : List (Nat × Reader)) (k : Nat) (v : Reader) : List (Nat × Reader) :=
  (k, v) :: m.filter (fun p => p.1 != k)

/-- Go map deletion `delete(m, k)`. -/
def mapDel (m : List (Nat × Reader)) (k : Nat) : List (Nat × Reader) :=
  m.filter (fun p => p.1 != k)

/-- `Snapshot.Get(key)`: fails with `AlreadyClosed` when closed,
otherwise delegates to the root node.  The root descent `s.root.get(key)`
is defined outside src/; its outcome is passed as the argument `rg`
(modelled from the spec: descends the immutable root, `KeyNotFound` if
absent). -/
def Snapshot.Get (s : Snapshot) (rg : Except GoErr (List Nat × Nat)) :
    Except GoErr (List Nat × Nat) :=
  if s.closed then .error .alreadyClosed else rg

/-- `Snapshot.Ts()`: fails with `AlreadyClosed` when closed, otherwise
returns the root's timestamp. -/
def Snapshot.Ts (s : Snapshot) : Except GoErr Nat :=
  if s.closed then .error .alreadyClosed else .ok (GoNode.ts s.root)

/-- The Go `*Reader` result type of `Snapshot.Reader`. -/
abbrev ReaderHandle := Reader

/-- `Snapshot.Reader(spec)`: `AlreadyClosed` when closed,
`IllegalArgument` when `spec == nil`; then the descent
`s.root.findLeafNode(...)` runs — its outcome is the argument `fr`
(modelled from the spec, see `FindRes`) — with `ErrKeyNotFound` mapped to
`ErrNoMoreEntries` and any other error propagated.  On success a new
reader is registered under id `s.maxReaderID`, which is then
incremented. -/
def Snapshot.Reader (s : Snapshot) (spec : Option ReaderSpec)
    (fr : Except GoErr FindRes) : Except GoErr (Snapshot × ReaderHandle) :=
  if s.closed then .error .alreadyClosed
  else
    match spec with
    | none => .error .illegalArgument
    | some sp =>
      match fr with
      | .error e => if e = .keyNotFound then .error .noMoreEntries else .error e
      | .ok r =>
        match sp with
        | ReaderSpec.mk ik ip ao =>
          let rd : ReaderHandle := ⟨s.maxReaderID, ik, ip, ao, r.path, r.leaf, r.offset, false⟩
          .ok (Snapshot.mk s.id s.root (mapPut s.readers rd.id rd) (s.maxReaderID + 1) s.closed, rd)

/-- `Snapshot.closedReader(r)`: `AlreadyClosed` when the snapshot is
closed, otherwise removes the reader's id from the registry. -/
def Snapshot.closedReader (s : Snapshot) (rid : Nat) : Except GoErr Snapshot :=
  if s.closed then .error .alreadyClosed
  else .ok (Snapshot.mk s.id s.root (mapDel s.readers rid) s.maxReaderID s.closed)

/-- `Snapshot.Close()`: `AlreadyClosed` when closed, `ReadersNotClosed`
when the registry is non-empty; otherwise `t.snapshotClosed(s)` is
invoked — its outcome is the argument `treeRes` (`none` = success) — and
only on success the snapshot is marked closed.  The result carries the
updated snapshot, the error (if any) and the number of `snapshotClosed`
invocations performed. -/
def Snapshot.Close (s : Snapshot) (treeRes : Option GoErr) :
    Snapshot × Option GoErr × Nat :=
  if s.closed then (s, some .alreadyClosed, 0)
  else if s.readers.length > 0 then (s, some .readersNotClosed, 0)
  else
    match treeRes with
    | some e => (s, some e, 1)
    | none => (Snapshot.mk s.id s.root s.readers s.maxReaderID true, none, 1)

/-- `Snapshot.WriteTo(w, writeOpts)`: delegates to
`s.root.writeTo(w, true, writeOpts)` and returns the total bytes
written.  There is no closed check.  The updated root and the bytes
handed to the sink are returned alongside. -/
def Snapshot.WriteTo (s : Snapshot) (opts : WriteOpts) :
    Except GoErr (Snapshot × Int × List Nat) :=
  match GoNode.writeTo s.root true opts with
  | .error e => .error e
  | .ok (r2, _, tw, bs) =>
    .ok (Snapshot.mk s.id r2 s.readers s.maxReaderID s.closed, tw, bs)

mutual

/-- Erase every `off` field in a node graph (used to state that
serialization changes nothing but offsets). -/
def GoNode.eraseOff : GoNode → GoNode
  | .inner cs mf _ mk tv => .inner (eraseOffList cs) mf 0 mk tv
  | .leaf vs mf _ mk tv => .leaf vs mf 0 mk tv
  | .ref res _ mk tv sz => .ref (eraseOffOpt res) 0 mk tv sz

/-- `GoNode.eraseOff` mapped over a child list. -/
def eraseOffList : List GoNode → List GoNode
  | [] => []
  | c :: rest => GoNode.eraseOff c :: eraseOffList rest

/-- `GoNode.eraseOff` mapped over an optional node. -/
def eraseOffOpt : Option GoNode → Option GoNode
  | none => none
  | some nd => some (GoNode.eraseOff nd)

end

theorem maxKey_eraseOff (n : GoNode) : GoNode.maxKey (GoNode.eraseOff n) = GoNode.maxKey n := by
  cases n <;> simp [GoNode.eraseOff, GoNode.maxKey]

theorem mutated_eraseOff (n : GoNode) : GoNode.mutated (GoNode.eraseOff n) = GoNode.mutated n := by
  cases n <;> simp [GoNode.eraseOff, GoNode.mutated]

theorem innerSize_eraseOffList (cs : List GoNode) : innerSize (eraseOffList cs) = innerSize cs := by
  induction cs with
  | nil => rfl
  | cons c rest ih =>
    simp only [eraseOffList, innerSize, List.map_cons, List.sum_cons, maxKey_eraseOff] at *
    omega

theorem length_eraseOffList (cs : List GoNode) : (eraseOffList cs).length = cs.length := by
  induction cs with
  | nil => rfl
  | cons c rest ih => simp [eraseOffList, ih]

theorem size_eraseOff (n : GoNode) : GoNode.size (GoNode.eraseOff n) = GoNode.size n := by
  cases n <;> simp [GoNode.eraseOff, GoNode.size, innerSize_eraseOffList]

/-- The byte string `buf[:i]` emitted for an inner node's own record. -/
def innerOwnBytes (asRoot : Bool) (cs : List GoNode) : List Nat :=
  (innerPieces asRoot cs).flatten

/-- The byte string `buf[:i]` emitted for a leaf node's record. -/
def leafBytes (asRoot : Bool) (vs : List leafValue) : List Nat :=
  (leafPieces asRoot vs).flatten

theorem refPieces_sum (c : GoNode) :
    ((refPieces c).map List.length).sum = 24 + (GoNode.maxKey c).length := by
  simp [refPieces, be32_length, be64_length]
  omega

theorem entryPieces_sum (v : leafValue) :
    ((entryPieces v).map List.length).sum = 24 + v.key.length + v.value.length := by
  simp [entryPieces, be32_length, be64_length]
  omega

theorem innerPieces_sum (a : Bool) (cs : List GoNode) :
    ((innerPieces a cs).map List.length).sum = innerSize cs + (if a then 4 else 0) := by
  have hfm : ((cs.flatMap refPieces).map List.length).sum
      = (cs.map (fun c => 24 + (GoNode.maxKey c).length)).sum := by
    induction cs with
    | nil => rfl
    | cons c rest ih => simp [List.flatMap_cons, refPieces_sum c, ih]
  cases a <;>
    simp [innerPieces, be32_length, hfm, innerSize] <;> omega

theorem leafPieces_sum (a : Bool) (vs : List leafValue) :
    ((leafPieces a vs).map List.length).sum = leafSize vs + (if a then 4 else 0) := by
  have hfm : ((vs.flatMap entryPieces).map List.length).sum
      = (vs.map (fun v => 24 + v.key.length + v.value.length)).sum := by
    induction vs with
    | nil => rfl
    | cons v rest ih => simp [List.flatMap_cons, entryPieces_sum v, ih]
  cases a <;>
    simp [leafPieces, be32_length, hfm, leafSize] <;> omega

theorem innerOwnBytes_length (a : Bool) (cs : List GoNode) :
    (innerOwnBytes a cs).length = innerSize cs + (if a then 4 else 0) := by
  simp [innerOwnBytes, List.length_flatten, innerPieces_sum]

theorem leafBytes_length (a : Bool) (vs : List leafValue) :
    (leafBytes a vs).length = leafSize vs + (if a then 4 else 0) := by
  simp [leafBytes, List.length_flatten, leafPieces_sum]

theorem writeSeq_inner_emit (a : Bool) (cs : List GoNode) :
    (writeSeq (List.replicate (innerSize cs + 4) 0) 0 (innerPieces a cs)).1.take
      (writeSeq (List.replicate (innerSize cs + 4) 0) 0 (innerPieces a cs)).2
      = innerOwnBytes a cs := by
  have h := writeSeq_spec (innerPieces a cs) (List.replicate (innerSize cs + 4) 0) 0
    (by simp [innerPieces_sum]; split <;> omega)
  simpa [innerOwnBytes] using h.2.2

theorem writeSeq_leaf_emit (a : Bool) (vs : List leafValue) :
    (writeSeq (List.replicate (leafSize vs + 4) 0) 0 (leafPieces a vs)).1.take
      (writeSeq (List.replicate (leafSize vs + 4) 0) 0 (leafPieces a vs)).2
      = leafBytes a vs := by
  have h := writeSeq_spec (leafPieces a vs) (List.replicate (leafSize vs + 4) 0) 0
    (by simp [leafPieces_sum]; split <;> omega)
  simpa [leafBytes] using h.2.2

theorem writeTo_inner_skip (cs : List GoNode) (mf : Bool) (off : Int) (mk : List Nat)
    (tv : Nat) (a : Bool) (opts : WriteOpts)
    (h : (opts.OnlyMutated && decide (off > 0)) = true) :
    GoNode.writeTo (.inner cs mf off mk tv) a opts
      = .ok (.inner cs mf off mk tv, off, 0, []) := by
  simp only [GoNode.writeTo.eq_def]
  simp [h]

theorem writeTo_inner_err (cs : List GoNode) (mf : Bool) (off : Int) (mk : List Nat)
    (tv : Nat) (a : Bool) (opts : WriteOpts) (e : GoErr)
    (h : (opts.OnlyMutated && decide (off > 0)) = false)
    (hw : writeChildren cs opts 0 = .error e) :
    GoNode.writeTo (.inner cs mf off mk tv) a opts = .error e := by
  simp only [GoNode.writeTo.eq_def]
  simp only [h, hw, Bool.false_eq_true, if_false]

theorem writeTo_inner_ok (cs : List GoNode) (mf : Bool) (off : Int) (mk : List Nat)
    (tv : Nat) (a : Bool) (opts : WriteOpts) (cs2 : List GoNode) (cw : Int) (cbs : List Nat)
    (h : (opts.OnlyMutated && decide (off > 0)) = false)
    (hw : writeChildren cs opts 0 = .ok (cs2, cw, cbs)) :
    GoNode.writeTo (.inner cs mf off mk tv) a opts
      = .ok (.inner cs2 mf (if opts.CommitLog then opts.BaseOffset + cw else off) mk tv,
             opts.BaseOffset + cw,
             cw + (innerSize cs2 : Int) + (if a then 4 else 0),
             cbs ++ innerOwnBytes a cs2) := by
  simp only [GoNode.writeTo.eq_def]
  simp only [h, hw, Bool.false_eq_true, if_false]
  simp [writeSeq_inner_emit]

theorem writeTo_leaf_skip (vs : List leafValue) (mf : Bool) (off : Int) (mk : List Nat)
    (tv : Nat) (a : Bool) (opts : WriteOpts)
    (h : (opts.OnlyMutated && decide (off > 0)) = true) :
    GoNode.writeTo (.leaf vs mf off mk tv) a opts
      = .ok (.leaf vs mf off mk tv, off, 0, []) := by
  simp only [GoNode.writeTo.eq_def]
  simp [h]

theorem writeTo_leaf_go (vs : List leafValue) (mf : Bool) (off : Int) (mk : List Nat)
    (tv : Nat) (a : Bool) (opts : WriteOpts)
    (h : (opts.OnlyMutated && decide (off > 0)) = false) :
    GoNode.writeTo (.leaf vs mf off mk tv) a opts
      = .ok (.leaf vs mf (if opts.CommitLog then opts.BaseOffset else off) mk tv,
             opts.BaseOffset,
             (leafSize vs : Int) + (if a then 4 else 0),
             leafBytes a vs) := by
  simp only [GoNode.writeTo.eq_def]
  simp only [h, Bool.false_eq_true, if_false]
  simp [writeSeq_leaf_emit]

theorem writeTo_ref_skip (res : Option GoNode) (off : Int) (mk : List Nat) (tv sz : Nat)
    (a : Bool) (opts : WriteOpts)
    (h : (opts.OnlyMutated && refSkip res) = true) :
    GoNode.writeTo (.ref res off mk tv sz) a opts
      = .ok (.ref res off mk tv sz, off, 0, []) := by
  conv_lhs => rw [GoNode.writeTo.eq_def]
  simp [h]

theorem writeTo_ref_none (off : Int) (mk : List Nat) (tv sz : Nat)
    (a : Bool) (opts : WriteOpts)
    (h : (opts.OnlyMutated && refSkip none) = false) :
    GoNode.writeTo (.ref none off mk tv sz) a opts = .error (GoErr.ioError 0) := by
  conv_lhs => rw [GoNode.writeTo.eq_def]
  simp only [h, Bool.false_eq_true, if_false]

theorem writeTo_ref_some (nd : GoNode) (off : Int) (mk : List Nat) (tv sz : Nat)
    (a : Bool) (opts : WriteOpts)
    (h : (opts.OnlyMutated && refSkip (some nd)) = false) :
    GoNode.writeTo (.ref (some nd) off mk tv sz) a opts
      = match GoNode.writeTo nd a opts with
        | .error e => .error e
        | .ok (nd2, o, w, bs) => .ok (.ref (some nd2) off mk tv sz, o, w, bs) := by
  conv_lhs => rw [GoNode.writeTo.eq_def]
  simp only [h, Bool.false_eq_true, if_false]

theorem writeChildren_nil (opts : WriteOpts) (cw : Int) :
    writeChildren [] opts cw = .ok ([], cw, []) := by
  conv_lhs => rw [writeChildren.eq_def]

theorem writeChildren_cons_skip (c : GoNode) (rest : List GoNode) (opts : WriteOpts)
    (cw : Int) (h : (opts.OnlyMutated && !(GoNode.mutated c)) = true) :
    writeChildren (c :: rest) opts cw
      = match writeChildren rest opts cw with
        | .error e => .error e
        | .ok (rest2, cw2, bs2) => .ok (c :: rest2, cw2, bs2) := by
  conv_lhs => rw [writeChildren.eq_def]
  simp only [h, if_true]

theorem writeChildren_cons_go (c : GoNode) (rest : List GoNode) (opts : WriteOpts)
    (cw : Int) (h : (opts.OnlyMutated && !(GoNode.mutated c)) = false) :
    writeChildren (c :: rest) opts cw
      = match GoNode.writeTo c false
          (WriteOpts.mk opts.OnlyMutated (opts.BaseOffset + cw) opts.CommitLog) with
        | .error e => .error e
        | .ok (c2, _, w, bs) =>
          match writeChildren rest opts (cw + w) with
          | .error e => .error e
          | .ok (rest2, cw2, bs2) => .ok (c2 :: rest2, cw2, bs ++ bs2) := by
  conv_lhs => rw [writeChildren.eq_def]
  simp only [h, Bool.false_eq_true, if_false]

/-- Strong-induction carrier: the total-written count returned by a
node's `writeTo` equals the number of bytes handed to the sink, and the
`cw` accumulator of the child loop advances by exactly the children's
sink bytes. -/
theorem twLen_aux : ∀ k : Nat,
    (∀ n a opts n2 o tw bs, sizeOf n ≤ k →
      GoNode.writeTo n a opts = .ok (n2, o, tw, bs) → tw = bs.length) ∧
    (∀ cs opts cw cs2 cw2 bsl, sizeOf cs ≤ k →
      writeChildren cs opts cw = .ok (cs2, cw2, bsl) → cw2 = cw + bsl.length) := by
  intro k
  induction k using Nat.strong_induction_on with
  | _ k IH =>
    constructor
    · intro n a opts n2 o tw bs hk h
      cases n with
      | inner cs mf off mk tv =>
        have hcs : sizeOf cs < k := by
          have := hk; simp only [GoNode.inner.sizeOf_spec] at this; omega
        by_cases hg : (opts.OnlyMutated && decide (off > 0)) = true
        · rw [writeTo_inner_skip _ _ _ _ _ _ _ hg] at h
          simp only [Except.ok.injEq, Prod.mk.injEq] at h
          obtain ⟨-, -, htw, hbs⟩ := h
          simp [← htw, ← hbs]
        · have hg' := eq_false_of_ne_true hg
          cases hw : writeChildren cs opts 0 with
          | error e => rw [writeTo_inner_err _ _ _ _ _ _ _ _ hg' hw] at h; cases h
          | ok r =>
            obtain ⟨cs2', cw', cbs⟩ := r
            rw [writeTo_inner_ok _ _ _ _ _ _ _ _ _ _ hg' hw] at h
            simp only [Except.ok.injEq, Prod.mk.injEq] at h
            obtain ⟨-, -, htw, hbs⟩ := h
            have hcw : cw' = 0 + (cbs.length : Int) :=
              (IH (sizeOf cs) hcs).2 cs opts 0 cs2' cw' cbs (Nat.le_refl _) hw
            subst htw hbs
            have hlen := innerOwnBytes_length a cs2'
            simp only [List.length_append, hlen]
            push_cast
            omega
      | leaf vs mf off mk tv =>
        by_cases hg : (opts.OnlyMutated && decide (off > 0)) = true
        · rw [writeTo_leaf_skip _ _ _ _ _ _ _ hg] at h
          simp only [Except.ok.injEq, Prod.mk.injEq] at h
          obtain ⟨-, -, htw, hbs⟩ := h
          simp [← htw, ← hbs]
        · have hg' := eq_false_of_ne_true hg
          rw [writeTo_leaf_go _ _ _ _ _ _ _ hg'] at h
          simp only [Except.ok.injEq, Prod.mk.injEq] at h
          obtain ⟨-, -, htw, hbs⟩ := h
          subst htw hbs
          have hlen := leafBytes_length a vs
          simp only [hlen]
          push_cast
          omega
      | ref res off mk tv sz =>
        by_cases hg : (opts.OnlyMutated && refSkip res) = true
        · rw [writeTo_ref_skip _ _ _ _ _ _ _ hg] at h
          simp only [Except.ok.injEq, Prod.mk.injEq] at h
          obtain ⟨-, -, htw, hbs⟩ := h
          simp [← htw, ← hbs]
        · have hg' := eq_false_of_ne_true hg
          cases res with
          | none => rw [writeTo_ref_none _ _ _ _ _ _ hg'] at h; cases h
          | some nd =>
            have hnd : sizeOf nd < k := by
              have := hk; simp only [GoNode.ref.sizeOf_spec, Option.some.sizeOf_spec] at this; omega
            rw [writeTo_ref_some _ _ _ _ _ _ _ hg'] at h
            cases hx : GoNode.writeTo nd a opts with
            | error e => rw [hx] at h; cases h
            | ok r =>
              obtain ⟨nd2, o2, w2, bs2⟩ := r
              rw [hx] at h
              simp only [Except.ok.injEq, Prod.mk.injEq] at h
              obtain ⟨-, -, htw, hbs⟩ := h
              rw [← htw, ← hbs]
              exact (IH (sizeOf nd) hnd).1 nd a opts nd2 o2 w2 bs2 (Nat.le_refl _) hx
    · intro cs opts cw cs2 cw2 bsl hk h
      cases cs with
      | nil =>
        rw [writeChildren_nil] at h
        simp only [Except.ok.injEq, Prod.mk.injEq] at h
        obtain ⟨-, hcw, hbs⟩ := h
        simp [← hcw, ← hbs]
      | cons c rest =>
        have hc : sizeOf c < k := by
          have := hk; simp only [List.cons.sizeOf_spec] at this; omega
        have hrest : sizeOf rest < k := by
          have := hk; simp only [List.cons.sizeOf_spec] at this; omega
        by_cases hg : (opts.OnlyMutated && !(GoNode.mutated c)) = true
        · rw [writeChildren_cons_skip _ _ _ _ hg] at h
          cases hw : writeChildren rest opts cw with
          | error e => rw [hw] at h; cases h
          | ok r =>
            obtain ⟨rest2, cwr, bsr⟩ := r
            rw [hw] at h
            simp only [Except.ok.injEq, Prod.mk.injEq] at h
            obtain ⟨-, hcw, hbs⟩ := h
            rw [← hcw, ← hbs]
            exact (IH (sizeOf rest) hrest).2 rest opts cw rest2 cwr bsr (Nat.le_refl _) hw
        · have hg' := eq_false_of_ne_true hg
          rw [writeChildren_cons_go _ _ _ _ hg'] at h
          cases hx : GoNode.writeTo c false
              (WriteOpts.mk opts.OnlyMutated (opts.BaseOffset + cw) opts.CommitLog) with
          | error e => rw [hx] at h; cases h
          | ok r =>
            obtain ⟨c2, o2, w2, bs2⟩ := r
            rw [hx] at h
            simp only [] at h
            cases hw : writeChildren rest opts (cw + w2) with
            | error e => rw [hw] at h; cases h
            | ok r2 =>
              obtain ⟨rest2, cwr, bsr⟩ := r2
              rw [hw] at h
              simp only [Except.ok.injEq, Prod.mk.injEq] at h
              obtain ⟨-, hcw, hbs⟩ := h
              have h1 : w2 = (bs2.length : Int) :=
                (IH (sizeOf c) hc).1 c false _ c2 o2 w2 bs2 (Nat.le_refl _) hx
              have h2 : cwr = (cw + w2) + (bsr.length : Int) :=
                (IH (sizeOf rest) hrest).2 rest opts (cw + w2) rest2 cwr bsr (Nat.le_refl _) hw
              rw [← hcw, ← hbs]
              simp only [List.length_append]
              push_cast
              omega

theorem writeTo_tw_eq_length (n : GoNode) (a : Bool) (opts : WriteOpts) (n2 : GoNode)
    (o tw : Int) (bs : List Nat) (h : GoNode.writeTo n a opts = .ok (n2, o, tw, bs)) :
    tw = bs.length :=
  (twLen_aux (sizeOf n)).1 n a opts n2 o tw bs (Nat.le_refl _) h

theorem writeChildren_cw_eq_length (cs : List GoNode) (opts : WriteOpts) (cw : Int)
    (cs2 : List GoNode) (cw2 : Int) (bsl : List Nat)
    (h : writeChildren cs opts cw = .ok (cs2, cw2, bsl)) :
    cw2 = cw + bsl.length :=
  (twLen_aux (sizeOf cs)).2 cs opts cw cs2 cw2 bsl (Nat.le_refl _) h

/-- Strong-induction carrier: a successful `writeTo` changes nothing in
the node graph except `off` fields (erasing all offsets yields the same
graph before and after). -/
theorem erase_aux : ∀ k : Nat,
    (∀ n a opts n2 o tw bs, sizeOf n ≤ k →
      GoNode.writeTo n a opts = .ok (n2, o, tw, bs) →
      GoNode.eraseOff n2 = GoNode.eraseOff n) ∧
    (∀ cs opts cw cs2 cw2 bsl, sizeOf cs ≤ k →
      writeChildren cs opts cw = .ok (cs2, cw2, bsl) →
      eraseOffList cs2 = eraseOffList cs) := by
  intro k
  induction k using Nat.strong_induction_on with
  | _ k IH =>
    constructor
    · intro n a opts n2 o tw bs hk h
      cases n with
      | inner cs mf off mk tv =>
        have hcs : sizeOf cs < k := by
          have := hk; simp only [GoNode.inner.sizeOf_spec] at this; omega
        by_cases hg : (opts.OnlyMutated && decide (off > 0)) = true
        · rw [writeTo_inner_skip _ _ _ _ _ _ _ hg] at h
          simp only [Except.ok.injEq, Prod.mk.injEq] at h
          obtain ⟨hn, -, -, -⟩ := h
          rw [← hn]
        · have hg' := eq_false_of_ne_true hg
          cases hw : writeChildren cs opts 0 with
          | error e => rw [writeTo_inner_err _ _ _ _ _ _ _ _ hg' hw] at h; cases h
          | ok r =>
            obtain ⟨cs2', cw', cbs⟩ := r
            rw [writeTo_inner_ok _ _ _ _ _ _ _ _ _ _ hg' hw] at h
            simp only [Except.ok.injEq, Prod.mk.injEq] at h
            obtain ⟨hn, -, -, -⟩ := h
            rw [← hn]
            simp only [GoNode.eraseOff]
            rw [(IH (sizeOf cs) hcs).2 cs opts 0 cs2' cw' cbs (Nat.le_refl _) hw]
      | leaf vs mf off mk tv =>
        by_cases hg : (opts.OnlyMutated && decide (off > 0)) = true
        · rw [writeTo_leaf_skip _ _ _ _ _ _ _ hg] at h
          simp only [Except.ok.injEq, Prod.mk.injEq] at h
          obtain ⟨hn, -, -, -⟩ := h
          rw [← hn]
        · have hg' := eq_false_of_ne_true hg
          rw [writeTo_leaf_go _ _ _ _ _ _ _ hg'] at h
          simp only [Except.ok.injEq, Prod.mk.injEq] at h
          obtain ⟨hn, -, -, -⟩ := h
          rw [← hn]
          simp only [GoNode.eraseOff]
      | ref res off mk tv sz =>
        by_cases hg : (opts.OnlyMutated && refSkip res) = true
        · rw [writeTo_ref_skip _ _ _ _ _ _ _ hg] at h
          simp only [Except.ok.injEq, Prod.mk.injEq] at h
          obtain ⟨hn, -, -, -⟩ := h
          rw [← hn]
        · have hg' := eq_false_of_ne_true hg
          cases res with
          | none => rw [writeTo_ref_none _ _ _ _ _ _ hg'] at h; cases h
          | some nd =>
            have hnd : sizeOf nd < k := by
              have := hk; simp only [GoNode.ref.sizeOf_spec, Option.some.sizeOf_spec] at this; omega
            rw [writeTo_ref_some _ _ _ _ _ _ _ hg'] at h
            cases hx : GoNode.writeTo nd a opts with
            | error e => rw [hx] at h; cases h
            | ok r =>
              obtain ⟨nd2, o2, w2, bs2⟩ := r
              rw [hx] at h
              simp only [Except.ok.injEq, Prod.mk.injEq] at h
              obtain ⟨hn, -, -, -⟩ := h
              rw [← hn]
              simp only [GoNode.eraseOff, eraseOffOpt]
              rw [(IH (sizeOf nd) hnd).1 nd a opts nd2 o2 w2 bs2 (Nat.le_refl _) hx]
    · intro cs opts cw cs2 cw2 bsl hk h
      cases cs with
      | nil =>
        rw [writeChildren_nil] at h
        simp only [Except.ok.injEq, Prod.mk.injEq] at h
        obtain ⟨hn, -, -⟩ := h
        rw [← hn]
      | cons c rest =>
        have hc : sizeOf c < k := by
          have := hk; simp only [List.cons.sizeOf_spec] at this; omega
        have hrest : sizeOf rest < k := by
          have := hk; simp only [List.cons.sizeOf_spec] at this; omega
        by_cases hg : (opts.OnlyMutated && !(GoNode.mutated c)) = true
        · rw [writeChildren_cons_skip _ _ _ _ hg] at h
          cases hw : writeChildren rest opts cw with
          | error e => rw [hw] at h; cases h
          | ok r =>
            obtain ⟨rest2, cwr, bsr⟩ := r
            rw [hw] at h
            simp only [Except.ok.injEq, Prod.mk.injEq] at h
            obtain ⟨hn, -, -⟩ := h
            rw [← hn]
            simp only [eraseOffList]
            rw [(IH (sizeOf rest) hrest).2 rest opts cw rest2 cwr bsr (Nat.le_refl _) hw]
        · have hg' := eq_false_of_ne_true hg
          rw [writeChildren_cons_go _ _ _ _ hg'] at h
          cases hx : GoNode.writeTo c false
              (WriteOpts.mk opts.OnlyMutated (opts.BaseOffset + cw) opts.CommitLog) with
          | error e => rw [hx] at h; cases h
          | ok r =>
            obtain ⟨c2, o2, w2, bs2⟩ := r
            rw [hx] at h
            simp only [] at h
            cases hw : writeChildren rest opts (cw + w2) with
            | error e => rw [hw] at h; cases h
            | ok r2 =>
              obtain ⟨rest2, cwr, bsr⟩ := r2
              rw [hw] at h
              simp only [Except.ok.injEq, Prod.mk.injEq] at h
              obtain ⟨hn, -, -⟩ := h
              rw [← hn]
              simp only [eraseOffList]
              rw [(IH (sizeOf c) hc).1 c false _ c2 o2 w2 bs2 (Nat.le_refl _) hx,
                  (IH (sizeOf rest) hrest).2 rest opts (cw + w2) rest2 cwr bsr (Nat.le_refl _) hw]

theorem writeTo_eraseOff (n : GoNode) (a : Bool) (opts : WriteOpts) (n2 : GoNode)
    (o tw : Int) (bs : List Nat) (h : GoNode.writeTo n a opts = .ok (n2, o, tw, bs)) :
    GoNode.eraseOff n2 = GoNode.eraseOff n :=
  (erase_aux (sizeOf n)).1 n a opts n2 o tw bs (Nat.le_refl _) h

theorem writeChildren_eraseOffList (cs : List GoNode) (opts : WriteOpts) (cw : Int)
    (cs2 : List GoNode) (cw2 : Int) (bsl : List Nat)
    (h : writeChildren cs opts cw = .ok (cs2, cw2, bsl)) :
    eraseOffList cs2 = eraseOffList cs :=
  (erase_aux (sizeOf cs)).2 cs opts cw cs2 cw2 bsl (Nat.le_refl _) h

theorem writeTo_maxKey (n : GoNode) (a : Bool) (opts : WriteOpts) (n2 : GoNode)
    (o tw : Int) (bs : List Nat) (h : GoNode.writeTo n a opts = .ok (n2, o, tw, bs)) :
    GoNode.maxKey n2 = GoNode.maxKey n := by
  rw [← maxKey_eraseOff n2, ← maxKey_eraseOff n, writeTo_eraseOff n a opts n2 o tw bs h]

theorem writeTo_size_eq (n : GoNode) (a : Bool) (opts : WriteOpts) (n2 : GoNode)
    (o tw : Int) (bs : List Nat) (h : GoNode.writeTo n a opts = .ok (n2, o, tw, bs)) :
    GoNode.size n2 = GoNode.size n := by
  rw [← size_eraseOff n2, ← size_eraseOff n, writeTo_eraseOff n a opts n2 o tw bs h]

theorem writeChildren_innerSize (cs : List GoNode) (opts : WriteOpts) (cw : Int)
    (cs2 : List GoNode) (cw2 : Int) (bsl : List Nat)
    (h : writeChildren cs opts cw = .ok (cs2, cw2, bsl)) :
    innerSize cs2 = innerSize cs := by
  rw [← innerSize_eraseOffList cs2, ← innerSize_eraseOffList cs,
      writeChildren_eraseOffList cs opts cw cs2 cw2 bsl h]

/-- Strong-induction carrier: with `CommitLog=false` a successful
`writeTo` leaves every node (offsets included) exactly as it was. -/
theorem nocommit_aux : ∀ k : Nat,
    (∀ n a opts n2 o tw bs, sizeOf n ≤ k → opts.CommitLog = false →
      GoNode.writeTo n a opts = .ok (n2, o, tw, bs) → n2 = n) ∧
    (∀ cs opts cw cs2 cw2 bsl, sizeOf cs ≤ k → opts.CommitLog = false →
      writeChildren cs opts cw = .ok (cs2, cw2, bsl) → cs2 = cs) := by
  intro k
  induction k using Nat.strong_induction_on with
  | _ k IH =>
    constructor
    · intro n a opts n2 o tw bs hk hCL h
      cases n with
      | inner cs mf off mk tv =>
        have hcs : sizeOf cs < k := by
          have := hk; simp only [GoNode.inner.sizeOf_spec] at this; omega
        by_cases hg : (opts.OnlyMutated && decide (off > 0)) = true
        · rw [writeTo_inner_skip _ _ _ _ _ _ _ hg] at h
          simp only [Except.ok.injEq, Prod.mk.injEq] at h
          obtain ⟨hn, -, -, -⟩ := h
          rw [← hn]
        · have hg' := eq_false_of_ne_true hg
          cases hw : writeChildren cs opts 0 with
          | error e => rw [writeTo_inner_err _ _ _ _ _ _ _ _ hg' hw] at h; cases h
          | ok r =>
            obtain ⟨cs2', cw', cbs⟩ := r
            rw [writeTo_inner_ok _ _ _ _ _ _ _ _ _ _ hg' hw] at h
            simp only [Except.ok.injEq, Prod.mk.injEq] at h
            obtain ⟨hn, -, -, -⟩ := h
            rw [← hn, hCL]
            rw [(IH (sizeOf cs) hcs).2 cs opts 0 cs2' cw' cbs (Nat.le_refl _) hCL hw]
            simp
      | leaf vs mf off mk tv =>
        by_cases hg : (opts.OnlyMutated && decide (off > 0)) = true
        · rw [writeTo_leaf_skip _ _ _ _ _ _ _ hg] at h
          simp only [Except.ok.injEq, Prod.mk.injEq] at h
          obtain ⟨hn, -, -, -⟩ := h
          rw [← hn]
        · have hg' := eq_false_of_ne_true hg
          rw [writeTo_leaf_go _ _ _ _ _ _ _ hg'] at h
          simp only [Except.ok.injEq, Prod.mk.injEq] at h
          obtain ⟨hn, -, -, -⟩ := h
          rw [← hn, hCL]
          simp
      | ref res off mk tv sz =>
        by_cases hg : (opts.OnlyMutated && refSkip res) = true
        · rw [writeTo_ref_skip _ _ _ _ _ _ _ hg] at h
          simp only [Except.ok.injEq, Prod.mk.injEq] at h
          obtain ⟨hn, -, -, -⟩ := h
          rw [← hn]
        · have hg' := eq_false_of_ne_true hg
          cases res with
          | none => rw [writeTo_ref_none _ _ _ _ _ _ hg'] at h; cases h
          | some nd =>
            have hnd : sizeOf nd < k := by
              have := hk; simp only [GoNode.ref.sizeOf_spec, Option.some.sizeOf_spec] at this; omega
            rw [writeTo_ref_some _ _ _ _ _ _ _ hg'] at h
            cases hx : GoNode.writeTo nd a opts with
            | error e => rw [hx] at h; cases h
            | ok r =>
              obtain ⟨nd2, o2, w2, bs2⟩ := r
              rw [hx] at h
              simp only [Except.ok.injEq, Prod.mk.injEq] at h
              obtain ⟨hn, -, -, -⟩ := h
              rw [← hn,
                (IH (sizeOf nd) hnd).1 nd a opts nd2 o2 w2 bs2 (Nat.le_refl _) hCL hx]
    · intro cs opts cw cs2 cw2 bsl hk hCL h
      cases cs with
      | nil =>
        rw [writeChildren_nil] at h
        simp only [Except.ok.injEq, Prod.mk.injEq] at h
        obtain ⟨hn, -, -⟩ := h
        rw [← hn]
      | cons c rest =>
        have hc : sizeOf c < k := by
          have := hk; simp only [List.cons.sizeOf_spec] at this; omega
        have hrest : sizeOf rest < k := by
          have := hk; simp only [List.cons.sizeOf_spec] at this; omega
        by_cases hg : (opts.OnlyMutated && !(GoNode.mutated c)) = true
        · rw [writeChildren_cons_skip _ _ _ _ hg] at h
          cases hw : writeChildren rest opts cw with
          | error e => rw [hw] at h; cases h
          | ok r =>
            obtain ⟨rest2, cwr, bsr⟩ := r
            rw [hw] at h
            simp only [Except.ok.injEq, Prod.mk.injEq] at h
            obtain ⟨hn, -, -⟩ := h
            rw [← hn,
              (IH (sizeOf rest) hrest).2 rest opts cw rest2 cwr bsr (Nat.le_refl _) hCL hw]
        · have hg' := eq_false_of_ne_true hg
          rw [writeChildren_cons_go _ _ _ _ hg'] at h
          cases hx : GoNode.writeTo c false
              (WriteOpts.mk opts.OnlyMutated (opts.BaseOffset + cw) opts.CommitLog) with
          | error e => rw [hx] at h; cases h
          | ok r =>
            obtain ⟨c2, o2, w2, bs2⟩ := r
            rw [hx] at h
            simp only [] at h
            cases hw : writeChildren rest opts (cw + w2) with
            | error e => rw [hw] at h; cases h
            | ok r2 =>
              obtain ⟨rest2, cwr, bsr⟩ := r2
              rw [hw] at h
              simp only [Except.ok.injEq, Prod.mk.injEq] at h
              obtain ⟨hn, -, -⟩ := h
              have hCL2 : (WriteOpts.mk opts.OnlyMutated (opts.BaseOffset + cw)
                  opts.CommitLog).CommitLog = false := hCL
              rw [← hn,
                (IH (sizeOf c) hc).1 c false _ c2 o2 w2 bs2 (Nat.le_refl _) hCL2 hx,
                (IH (sizeOf rest) hrest).2 rest opts (cw + w2) rest2 cwr bsr (Nat.le_refl _) hCL hw]

theorem writeTo_nocommit (n : GoNode) (a : Bool) (opts : WriteOpts) (n2 : GoNode)
    (o tw : Int) (bs : List Nat) (hCL : opts.CommitLog = false)
    (h : GoNode.writeTo n a opts = .ok (n2, o, tw, bs)) : n2 = n :=
  (nocommit_aux (sizeOf n)).1 n a opts n2 o tw bs (Nat.le_refl _) hCL h

/-- Strong-induction carrier: for the same node graph, a successful run
with `OnlyMutated=true` hands the sink at most as many bytes as a
successful run with `OnlyMutated=false` (base offset and commit-log mode
of the two runs arbitrary). -/
theorem mono_aux : ∀ k : Nat,
    (∀ n a b1 c1 b2 c2 nT oT twT bsT nF oF twF bsF, sizeOf n ≤ k →
      GoNode.writeTo n a (WriteOpts.mk true b2 c2) = .ok (nT, oT, twT, bsT) →
      GoNode.writeTo n a (WriteOpts.mk false b1 c1) = .ok (nF, oF, twF, bsF) →
      bsT.length ≤ bsF.length) ∧
    (∀ cs cwT cwF b1 c1 b2 c2 csT cwT2 bsT csF cwF2 bsF, sizeOf cs ≤ k →
      writeChildren cs (WriteOpts.mk true b2 c2) cwT = .ok (csT, cwT2, bsT) →
      writeChildren cs (WriteOpts.mk false b1 c1) cwF = .ok (csF, cwF2, bsF) →
      bsT.length ≤ bsF.length) := by
  intro k
  induction k using Nat.strong_induction_on with
  | _ k IH =>
    constructor
    · intro n a b1 c1 b2 c2 nT oT twT bsT nF oF twF bsF hk hT hF
      cases n with
      | inner cs mf off mk tv =>
        have hcs : sizeOf cs < k := by
          have := hk; simp only [GoNode.inner.sizeOf_spec] at this; omega
        have hgF : ((WriteOpts.mk false b1 c1).OnlyMutated && decide (off > 0)) = false := by
          simp
        by_cases hg : ((WriteOpts.mk true b2 c2).OnlyMutated && decide (off > 0)) = true
        · rw [writeTo_inner_skip _ _ _ _ _ _ _ hg] at hT
          simp only [Except.ok.injEq, Prod.mk.injEq] at hT
          obtain ⟨-, -, -, hbsT⟩ := hT
          rw [← hbsT]
          simp
        · have hg' := eq_false_of_ne_true hg
          cases hwT : writeChildren cs (WriteOpts.mk true b2 c2) 0 with
          | error e => rw [writeTo_inner_err _ _ _ _ _ _ _ _ hg' hwT] at hT; cases hT
          | ok rT =>
            obtain ⟨csT', cwT', cbsT⟩ := rT
            cases hwF : writeChildren cs (WriteOpts.mk false b1 c1) 0 with
            | error e => rw [writeTo_inner_err _ _ _ _ _ _ _ _ hgF hwF] at hF; cases hF
            | ok rF =>
              obtain ⟨csF', cwF', cbsF⟩ := rF
              rw [writeTo_inner_ok _ _ _ _ _ _ _ _ _ _ hg' hwT] at hT
              rw [writeTo_inner_ok _ _ _ _ _ _ _ _ _ _ hgF hwF] at hF
              simp only [Except.ok.injEq, Prod.mk.injEq] at hT hF
              obtain ⟨-, -, -, hbsT⟩ := hT
              obtain ⟨-, -, -, hbsF⟩ := hF
              rw [← hbsT, ← hbsF]
              simp only [List.length_append, innerOwnBytes_length,
                writeChildren_innerSize cs _ _ _ _ _ hwT,
                writeChildren_innerSize cs _ _ _ _ _ hwF]
              have := (IH (sizeOf cs) hcs).2 cs 0 0 b1 c1 b2 c2 csT' cwT' cbsT csF' cwF' cbsF
                (Nat.le_refl _) hwT hwF
              omega
      | leaf vs mf off mk tv =>
        have hgF : ((WriteOpts.mk false b1 c1).OnlyMutated && decide (off > 0)) = false := by
          simp
        by_cases hg : ((WriteOpts.mk true b2 c2).OnlyMutated && decide (off > 0)) = true
        · rw [writeTo_leaf_skip _ _ _ _ _ _ _ hg] at hT
          simp only [Except.ok.injEq, Prod.mk.injEq] at hT
          obtain ⟨-, -, -, hbsT⟩ := hT
          rw [← hbsT]
          simp
        · have hg' := eq_false_of_ne_true hg
          rw [writeTo_leaf_go _ _ _ _ _ _ _ hg'] at hT
          rw [writeTo_leaf_go _ _ _ _ _ _ _ hgF] at hF
          simp only [Except.ok.injEq, Prod.mk.injEq] at hT hF
          obtain ⟨-, -, -, hbsT⟩ := hT
          obtain ⟨-, -, -, hbsF⟩ := hF
          rw [← hbsT, ← hbsF]
      | ref res off mk tv sz =>
        have hgF : ((WriteOpts.mk false b1 c1).OnlyMutated && refSkip res) = false := by
          simp
        by_cases hg : ((WriteOpts.mk true b2 c2).OnlyMutated && refSkip res) = true
        · rw [writeTo_ref_skip _ _ _ _ _ _ _ hg] at hT
          simp only [Except.ok.injEq, Prod.mk.injEq] at hT
          obtain ⟨-, -, -, hbsT⟩ := hT
          rw [← hbsT]
          simp
        · have hg' := eq_false_of_ne_true hg
          cases res with
          | none => rw [writeTo_ref_none _ _ _ _ _ _ hg'] at hT; cases hT
          | some nd =>
            have hnd : sizeOf nd < k := by
              have := hk; simp only [GoNode.ref.sizeOf_spec, Option.some.sizeOf_spec] at this; omega
            rw [writeTo_ref_some _ _ _ _ _ _ _ hg'] at hT
            rw [writeTo_ref_some _ _ _ _ _ _ _ hgF] at hF
            cases hxT : GoNode.writeTo nd a (WriteOpts.mk true b2 c2) with
            | error e => rw [hxT] at hT; cases hT
            | ok rT =>
              obtain ⟨ndT, oT2, wT2, bsT2⟩ := rT
              cases hxF : GoNode.writeTo nd a (WriteOpts.mk false b1 c1) with
              | error e => rw [hxF] at hF; cases hF
              | ok rF =>
                obtain ⟨ndF, oF2, wF2, bsF2⟩ := rF
                rw [hxT] at hT
                rw [hxF] at hF
                simp only [Except.ok.injEq, Prod.mk.injEq] at hT hF
                obtain ⟨-, -, -, hbsT⟩ := hT
                obtain ⟨-, -, -, hbsF⟩ := hF
                rw [← hbsT, ← hbsF]
                exact (IH (sizeOf nd) hnd).1 nd a b1 c1 b2 c2 ndT oT2 wT2 bsT2 ndF oF2 wF2 bsF2
                  (Nat.le_refl _) hxT hxF
    · intro cs cwT cwF b1 c1 b2 c2 csT cwT2 bsT csF cwF2 bsF hk hT hF
      cases cs with
      | nil =>
        rw [writeChildren_nil] at hT hF
        simp only [Except.ok.injEq, Prod.mk.injEq] at hT hF
        obtain ⟨-, -, hbsT⟩ := hT
        obtain ⟨-, -, hbsF⟩ := hF
        rw [← hbsT, ← hbsF]
      | cons c rest =>
        have hc : sizeOf c < k := by
          have := hk; simp only [List.cons.sizeOf_spec] at this; omega
        have hrest : sizeOf rest < k := by
          have := hk; simp only [List.cons.sizeOf_spec] at this; omega
        have hgF : ((WriteOpts.mk false b1 c1).OnlyMutated && !(GoNode.mutated c)) = false := by
          simp
        rw [writeChildren_cons_go _ _ _ _ hgF] at hF
        cases hxF : GoNode.writeTo c false
            (WriteOpts.mk (WriteOpts.mk false b1 c1).OnlyMutated
              ((WriteOpts.mk false b1 c1).BaseOffset + cwF) (WriteOpts.mk false b1 c1).CommitLog) with
        | error e => rw [hxF] at hF; cases hF
        | ok rF =>
          obtain ⟨cF2, oF2, wF2, bsF2⟩ := rF
          rw [hxF] at hF
          simp only [] at hF
          cases hwF : writeChildren rest (WriteOpts.mk false b1 c1) (cwF + wF2) with
          | error e => rw [hwF] at hF; cases hF
          | ok rF2 =>
            obtain ⟨restF2, cwrF, bsrF⟩ := rF2
            rw [hwF] at hF
            simp only [Except.ok.injEq, Prod.mk.injEq] at hF
            obtain ⟨-, -, hbsF⟩ := hF
            by_cases hg : ((WriteOpts.mk true b2 c2).OnlyMutated && !(GoNode.mutated c)) = true
            · rw [writeChildren_cons_skip _ _ _ _ hg] at hT
              cases hwT : writeChildren rest (WriteOpts.mk true b2 c2) cwT with
              | error e => rw [hwT] at hT; cases hT
              | ok rT2 =>
                obtain ⟨restT2, cwrT, bsrT⟩ := rT2
                rw [hwT] at hT
                simp only [Except.ok.injEq, Prod.mk.injEq] at hT
                obtain ⟨-, -, hbsT⟩ := hT
                rw [← hbsT, ← hbsF]
                have := (IH (sizeOf rest) hrest).2 rest cwT (cwF + wF2) b1 c1 b2 c2
                  restT2 cwrT bsrT restF2 cwrF bsrF (Nat.le_refl _) hwT hwF
                simp only [List.length_append]
                omega
            · have hg' := eq_false_of_ne_true hg
              rw [writeChildren_cons_go _ _ _ _ hg'] at hT
              cases hxT : GoNode.writeTo c false
                  (WriteOpts.mk (WriteOpts.mk true b2 c2).OnlyMutated
                    ((WriteOpts.mk true b2 c2).BaseOffset + cwT)
                    (WriteOpts.mk true b2 c2).CommitLog) with
              | error e => rw [hxT] at hT; cases hT
              | ok rT =>
                obtain ⟨cT2, oT2, wT2, bsT2⟩ := rT
                rw [hxT] at hT
                simp only [] at hT
                cases hwT : writeChildren rest (WriteOpts.mk true b2 c2) (cwT + wT2) with
                | error e => rw [hwT] at hT; cases hT
                | ok rT2 =>
                  obtain ⟨restT2, cwrT, bsrT⟩ := rT2
                  rw [hwT] at hT
                  simp only [Except.ok.injEq, Prod.mk.injEq] at hT
                  obtain ⟨-, -, hbsT⟩ := hT
                  rw [← hbsT, ← hbsF]
                  have h1 := (IH (sizeOf c) hc).1 c false (b1 + cwF) c1 (b2 + cwT) c2
                    cT2 oT2 wT2 bsT2 cF2 oF2 wF2 bsF2 (Nat.le_refl _) hxT hxF
                  have h2 := (IH (sizeOf rest) hrest).2 rest (cwT + wT2) (cwF + wF2) b1 c1 b2 c2
                    restT2 cwrT bsrT restF2 cwrF bsrF (Nat.le_refl _) hwT hwF
                  simp only [List.length_append]
                  omega

set_option maxRecDepth 8000

/-- Discriminator for the `nodeRef` variant. -/
def GoNode.isRef : GoNode → Bool
  | .ref _ _ _ _ _ => true
  | _ => false

/-- The child reference record emitted by `writeNodeRefTo(c, buf)`:
`maxKeyLen(4B) | maxKeyBytes | commitTimestamp(8B) | childSize(4B) |
childOffset(8B)`, all integers big-endian. -/
def writeNodeRefTo (c : GoNode) : List Nat :=
  be32 (GoNode.maxKey c).length ++ GoNode.maxKey c ++ be64 (GoNode.ts c) ++
    be32 (GoNode.size c) ++ be64 (u64 (GoNode.offset c))

/-- One leaf entry record: `keyLen(4B) | keyBytes | valueLen(4B) |
valueBytes | timestamp(8B) | prevTimestamp(8B)`, all integers
big-endian. -/
def leafEntryRecord (v : leafValue) : List Nat :=
  be32 v.key.length ++ v.key ++ be32 v.value.length ++ v.value ++
    be64 v.ts ++ be64 v.prevTs

theorem flatten_flatMap_pieces {α : Type} (f : α → List (List Nat)) (l : List α) :
    (l.flatMap f).flatten = (l.map (fun x => (f x).flatten)).flatten := by
  induction l with
  | nil => rfl
  | cons x xs ih => simp [List.flatMap_cons, ih]

theorem refPieces_flatten (c : GoNode) : (refPieces c).flatten = writeNodeRefTo c := by
  simp [refPieces, writeNodeRefTo]

theorem entryPieces_flatten (v : leafValue) : (entryPieces v).flatten = leafEntryRecord v := by
  simp [entryPieces, leafEntryRecord]

theorem innerOwnBytes_eq (a : Bool) (cs : List GoNode) :
    innerOwnBytes a cs
      = (if a then RootInnerNodeType else InnerNodeType) ::
        (be32 (innerSize cs) ++ be32 cs.length ++ (cs.map writeNodeRefTo).flatten ++
         (if a then be32 (innerSize cs) else [])) := by
  have h := flatten_flatMap_pieces refPieces cs
  simp only [innerOwnBytes, innerPieces, List.flatten_cons, List.flatten_append, h]
  have h2 : (cs.map fun x => (refPieces x).flatten) = cs.map writeNodeRefTo := by
    simp [refPieces_flatten]
  rw [h2]
  cases a <;> simp [List.append_assoc]

theorem leafBytes_eq (a : Bool) (vs : List leafValue) :
    leafBytes a vs
      = (if a then RootLeafNodeType else LeafNodeType) ::
        (be32 (leafSize vs) ++ be32 vs.length ++ (vs.map leafEntryRecord).flatten ++
         (if a then be32 (leafSize vs) else [])) := by
  have h := flatten_flatMap_pieces entryPieces vs
  simp only [leafBytes, leafPieces, List.flatten_cons, List.flatten_append, h]
  have h2 : (vs.map fun x => (entryPieces x).flatten) = vs.map leafEntryRecord := by
    simp [entryPieces_flatten]
  rw [h2]
  cases a <;> simp [List.append_assoc]

/-- The child pass of `innerNode.writeTo` as a relation: starting from
accumulated count `cw`, each child is either skipped under `OnlyMutated`
when not mutated (kept untouched), or written with `BaseOffset` advanced
by `cw`, which then grows by the child's total-written count. -/
inductive ChildPass (opts : WriteOpts) : Int → List GoNode → List GoNode → List Nat → Prop
  | nil (cw : Int) : ChildPass opts cw [] [] []
  | skip (cw : Int) (c : GoNode) (rest rest2 : List GoNode) (bsl : List Nat) :
      (opts.OnlyMutated && !(GoNode.mutated c)) = true →
      ChildPass opts cw rest rest2 bsl →
      ChildPass opts cw (c :: rest) (c :: rest2) bsl
  | go (cw : Int) (c c2 : GoNode) (o2 w2 : Int) (bs2 : List Nat)
      (rest rest2 : List GoNode) (bsl : List Nat) :
      (opts.OnlyMutated && !(GoNode.mutated c)) = false →
      GoNode.writeTo c false
        (WriteOpts.mk opts.OnlyMutated (opts.BaseOffset + cw) opts.CommitLog)
        = .ok (c2, o2, w2, bs2) →
      ChildPass opts (cw + w2) rest rest2 bsl →
      ChildPass opts cw (c :: rest) (c2 :: rest2) (bs2 ++ bsl)

theorem writeChildren_childPass (cs : List GoNode) (opts : WriteOpts) (cw : Int)
    (cs2 : List GoNode) (cw2 : Int) (bsl : List Nat)
    (h : writeChildren cs opts cw = .ok (cs2, cw2, bsl)) :
    ChildPass opts cw cs cs2 bsl := by
  induction cs generalizing cw cs2 cw2 bsl with
  | nil =>
    rw [writeChildren_nil] at h
    simp only [Except.ok.injEq, Prod.mk.injEq] at h
    obtain ⟨hn, -, hbs⟩ := h
    rw [← hn, ← hbs]
    exact ChildPass.nil cw
  | cons c rest ih =>
    by_cases hg : (opts.OnlyMutated && !(GoNode.mutated c)) = true
    · rw [writeChildren_cons_skip _ _ _ _ hg] at h
      cases hw : writeChildren rest opts cw with
      | error e => rw [hw] at h; cases h
      | ok r =>
        obtain ⟨rest2, cwr, bsr⟩ := r
        rw [hw] at h
        simp only [Except.ok.injEq, Prod.mk.injEq] at h
        obtain ⟨hn, -, hbs⟩ := h
        rw [← hn, ← hbs]
        exact ChildPass.skip cw c rest rest2 bsr hg (ih cw rest2 cwr bsr hw)
    · have hg' := eq_false_of_ne_true hg
      rw [writeChildren_cons_go _ _ _ _ hg'] at h
      cases hx : GoNode.writeTo c false
          (WriteOpts.mk opts.OnlyMutated (opts.BaseOffset + cw) opts.CommitLog) with
      | error e => rw [hx] at h; cases h
      | ok r =>
        obtain ⟨c2, o2, w2, bs2⟩ := r
        rw [hx] at h
        simp only [] at h
        cases hw : writeChildren rest opts (cw + w2) with
        | error e => rw [hw] at h; cases h
        | ok r2 =>
          obtain ⟨rest2, cwr, bsr⟩ := r2
          rw [hw] at h
          simp only [Except.ok.injEq, Prod.mk.injEq] at h
          obtain ⟨hn, -, hbs⟩ := h
          rw [← hn, ← hbs]
          exact ChildPass.go cw c c2 o2 w2 bs2 rest rest2 bsr hg' hx
            (ih (cw + w2) rest2 cwr bsr hw)

/-- C1 (amended): on a closed snapshot, `Get` fails with `AlreadyClosed`
and returns no data whatever the root lookup would have produced, `Ts`
fails with `AlreadyClosed`, and `Reader` fails with `AlreadyClosed` for
every spec and every descent outcome.  (`WriteTo`, by contrast, performs
no closed check — see the counterexample.) -/
theorem C1_closed_rejects_get_ts_reader (s : Snapshot) (hc : s.closed = true) :
    (∀ rg, Snapshot.Get s rg = .error GoErr.alreadyClosed) ∧
    Snapshot.Ts s = .error GoErr.alreadyClosed ∧
    (∀ spec fr, Snapshot.Reader s spec fr = .error GoErr.alreadyClosed) := by
  refine ⟨fun rg => ?_, ?_, fun spec fr => ?_⟩ <;>
    simp [Snapshot.Get, Snapshot.Ts, Snapshot.Reader, hc]

/-- C1 witness: a concrete closed snapshot rejects `Get`, `Ts` and
`Reader` with `AlreadyClosed`. -/
theorem C1_closed_rejects_witness :
    Snapshot.Get (Snapshot.mk 2 (GoNode.leaf [] true 0 [] 0) [] 0 true) (.ok ([9], 4))
        = .error GoErr.alreadyClosed ∧
    Snapshot.Ts (Snapshot.mk 2 (GoNode.leaf [] true 0 [] 0) [] 0 true)
        = .error GoErr.alreadyClosed ∧
    Snapshot.Reader (Snapshot.mk 2 (GoNode.leaf [] true 0 [] 0) [] 0 true) none
        (.error GoErr.keyNotFound) = .error GoErr.alreadyClosed := by
  have h := C1_closed_rejects_get_ts_reader
    (Snapshot.mk 2 (GoNode.leaf [] true 0 [] 0) [] 0 true) rfl
  exact ⟨h.1 (.ok ([9], 4)), h.2.1, h.2.2 none (.error GoErr.keyNotFound)⟩

/-- C1 counterexample: `Snapshot.WriteTo` has no closed check — on a
closed snapshot it succeeds and hands 39 bytes to the sink, so the claim
"WriteTo is likewise not permitted to write anything after close" is
false on the code. -/
theorem C1_WriteTo_after_close_writes :
    Snapshot.WriteTo
        (Snapshot.mk 1 (GoNode.leaf [leafValue.mk [7] [8] 3 2] true 0 [7] 3) [] 0 true)
        (WriteOpts.mk false 0 false)
      = .ok (Snapshot.mk 1 (GoNode.leaf [leafValue.mk [7] [8] 3 2] true 0 [7] 3) [] 0 true,
             39, leafBytes true [leafValue.mk [7] [8] 3 2]) ∧
    (leafBytes true [leafValue.mk [7] [8] 3 2]).length = 39 := by
  exact ⟨rfl, rfl⟩

/-- C2: the byte-write helper's retry loop calls `w.Write(buf)` with the
full buffer each time: on buffer `[1, 2]` and a sink that accepts one
byte per call without error, the helper reports success although the
sink received `[1, 1]` — the first byte transmitted twice and the second
never — contradicting "transmits exactly the buffer's byte sequence,
once and in order"; a sink error is stopped on and propagated. -/
theorem C2_short_write_duplicates_bytes :
    writeTo [1, 2] [WResp.accept 1, WResp.accept 1] = some ([1, 1], none) ∧
    [1, 1] ≠ [1, 2] ∧
    writeTo [1, 2] [WResp.fail (GoErr.ioError 7)] = some ([], some (GoErr.ioError 7)) :=
  ⟨rfl, by decide, rfl⟩

/-- C4: `Close` fails with `AlreadyClosed` on a closed snapshot and with
`ReadersNotClosed` while readers remain, in both cases without notifying
the tree; otherwise it notifies `snapshotClosed` exactly once, and marks
the snapshot closed exactly when the notification succeeds — on failure
the error is returned and the snapshot stays open. -/
theorem C4_Close_contract (s : Snapshot) (treeRes : Option GoErr) :
    (s.closed = true → Snapshot.Close s treeRes = (s, some GoErr.alreadyClosed, 0)) ∧
    (s.closed = false → s.readers ≠ [] →
      Snapshot.Close s treeRes = (s, some GoErr.readersNotClosed, 0)) ∧
    (∀ e, s.closed = false → s.readers = [] → treeRes = some e →
      Snapshot.Close s treeRes = (s, some e, 1)) ∧
    (s.closed = false → s.readers = [] → treeRes = none →
      Snapshot.Close s treeRes
        = (Snapshot.mk s.id s.root s.readers s.maxReaderID true, none, 1)) := by
  refine ⟨fun hc => ?_, fun hc hr => ?_, fun e hc hr ht => ?_, fun hc hr ht => ?_⟩
  · simp [Snapshot.Close, hc]
  · have hl : 0 < s.readers.length := List.length_pos.mpr hr
    simp [Snapshot.Close, hc, hl]
  · simp [Snapshot.Close, hc, hr, ht]
  · simp [Snapshot.Close, hc, hr, ht]

/-- C4 witness: on a concrete open snapshot with no readers, `Close`
succeeds with one notification and marks the snapshot closed; with one
open reader it fails with `ReadersNotClosed` and zero notifications. -/
theorem C4_Close_witness :
    Snapshot.Close (Snapshot.mk 3 (GoNode.leaf [] true 0 [] 0) [] 5 false) none
      = (Snapshot.mk 3 (GoNode.leaf [] true 0 [] 0) [] 5 true, none, 1) ∧
    Snapshot.Close
        (Snapshot.mk 3 (GoNode.leaf [] true 0 [] 0)
          [(0, Reader.mk 0 [] false true [] (GoNode.leaf [] true 0 [] 0) 0 false)] 5 false)
        none
      = (Snapshot.mk 3 (GoNode.leaf [] true 0 [] 0)
          [(0, Reader.mk 0 [] false true [] (GoNode.leaf [] true 0 [] 0) 0 false)] 5 false,
         some GoErr.readersNotClosed, 0) := by
  constructor
  · exact (C4_Close_contract (Snapshot.mk 3 (GoNode.leaf [] true 0 [] 0) [] 5 false)
      none).2.2.2 rfl rfl rfl
  · exact (C4_Close_contract
      (Snapshot.mk 3 (GoNode.leaf [] true 0 [] 0)
        [(0, Reader.mk 0 [] false true [] (GoNode.leaf [] true 0 [] 0) 0 false)] 5 false)
      none).2.1 rfl (by simp)

/-- C5: on an open snapshot, `Reader` with an absent spec fails with
`IllegalArgument`; a descent failing with the internal `KeyNotFound` is
reported as `NoMoreEntries`; and a successful call registers the new
reader under the current `maxReaderID`, which is then incremented — so
whenever all registered ids are below `maxReaderID` (as they are from
birth), the fresh id collides with no registered reader and the bound is
preserved: ids are unique and never reused. -/
theorem C5_Reader_allocation (s : Snapshot) (hc : s.closed = false) :
    (∀ fr, Snapshot.Reader s none fr = .error GoErr.illegalArgument) ∧
    (∀ sp, Snapshot.Reader s (some sp) (.error GoErr.keyNotFound)
        = .error GoErr.noMoreEntries) ∧
    (∀ sp r s2 rd, Snapshot.Reader s (some sp) (.ok r) = .ok (s2, rd) →
      rd.id = s.maxReaderID ∧
      s2.maxReaderID = s.maxReaderID + 1 ∧
      (rd.id, rd) ∈ s2.readers ∧
      ((∀ p ∈ s.readers, p.1 < s.maxReaderID) →
        (∀ p ∈ s.readers, p.1 ≠ rd.id) ∧
        (∀ p ∈ s2.readers, p.1 < s2.maxReaderID))) := by
  refine ⟨fun fr => ?_, fun sp => ?_, fun sp r s2 rd h => ?_⟩
  · simp [Snapshot.Reader, hc]
  · simp [Snapshot.Reader, hc]
  · obtain ⟨ik, ip, ao⟩ := sp
    simp only [Snapshot.Reader, hc, Bool.false_eq_true, if_false,
      Except.ok.injEq, Prod.mk.injEq] at h
    obtain ⟨hs2, hrd⟩ := h
    rw [← hs2, ← hrd]
    refine ⟨rfl, rfl, ?_, fun hb => ⟨fun p hp he => ?_, fun p hp => ?_⟩⟩
    · simp [mapPut]
    · have := hb p hp
      rw [he] at this
      simp at this
    · simp only [mapPut, List.mem_cons] at hp
      rcases hp with hp | hp
      · rw [hp]
        simp
      · have := hb p (List.mem_of_mem_filter hp)
        simp only []
        omega

/-- C5 witness: a concrete open snapshot rejects a nil spec and maps
`KeyNotFound` to `NoMoreEntries`, and a successful call hands out id 4
(the current `maxReaderID`) and bumps the counter to 5. -/
theorem C5_Reader_allocation_witness :
    Snapshot.Reader (Snapshot.mk 7 (GoNode.leaf [] true 0 [] 0) [] 4 false) none
        (.error GoErr.keyNotFound) = .error GoErr.illegalArgument ∧
    Snapshot.Reader (Snapshot.mk 7 (GoNode.leaf [] true 0 [] 0) [] 4 false)
        (some (ReaderSpec.mk [5] false true)) (.error GoErr.keyNotFound)
        = .error GoErr.noMoreEntries ∧
    (Reader.mk 4 [5] false true [] (GoNode.leaf [] true 0 [] 0) 0 false).id = 4 := by
  have h := C5_Reader_allocation (Snapshot.mk 7 (GoNode.leaf [] true 0 [] 0) [] 4 false) rfl
  refine ⟨h.1 (.error GoErr.keyNotFound), h.2.1 (ReaderSpec.mk [5] false true), ?_⟩
  have h3 := h.2.2 (ReaderSpec.mk [5] false true)
    (FindRes.mk [] (GoNode.leaf [] true 0 [] 0) 0)
    (Snapshot.mk 7 (GoNode.leaf [] true 0 [] 0)
      [(4, Reader.mk 4 [5] false true [] (GoNode.leaf [] true 0 [] 0) 0 false)] 5 false)
    (Reader.mk 4 [5] false true [] (GoNode.leaf [] true 0 [] 0) 0 false) rfl
  exact h3.1

/-- C6: a successful `OnlyMutated=true` serialization hands the sink at
most as many bytes as a successful `OnlyMutated=false` serialization of
the same node graph (base offset and commit-log mode arbitrary in each
run); and an inner or leaf node whose offset is already set (> 0) is
skipped under `OnlyMutated`: zero bytes are written and its existing
offset is returned. -/
theorem C6_onlyMutated_writes_no_more (n : GoNode) :
    (∀ a b1 c1 b2 c2 nT oT twT bsT nF oF twF bsF,
      GoNode.writeTo n a (WriteOpts.mk true b2 c2) = .ok (nT, oT, twT, bsT) →
      GoNode.writeTo n a (WriteOpts.mk false b1 c1) = .ok (nF, oF, twF, bsF) →
      bsT.length ≤ bsF.length) ∧
    (∀ a opts, opts.OnlyMutated = true → GoNode.offset n > 0 → GoNode.isRef n = false →
      GoNode.writeTo n a opts = .ok (n, GoNode.offset n, 0, [])) := by
  constructor
  · intro a b1 c1 b2 c2 nT oT twT bsT nF oF twF bsF hT hF
    exact (mono_aux (sizeOf n)).1 n a b1 c1 b2 c2 nT oT twT bsT nF oF twF bsF
      (Nat.le_refl _) hT hF
  · intro a opts hOM hoff href
    cases n with
    | inner cs mf off mk tv =>
      have hg : (opts.OnlyMutated && decide (off > 0)) = true := by
        simp only [GoNode.offset] at hoff
        simp [hOM, hoff]
      exact writeTo_inner_skip cs mf off mk tv a opts hg
    | leaf vs mf off mk tv =>
      have hg : (opts.OnlyMutated && decide (off > 0)) = true := by
        simp only [GoNode.offset] at hoff
        simp [hOM, hoff]
      exact writeTo_leaf_skip vs mf off mk tv a opts hg
    | ref res off mk tv sz => simp [GoNode.isRef] at href


/-- C6 witness: on a concrete two-leaf tree where one leaf is already
persisted (offset 5), the incremental dump (98 bytes) is no larger than
the full dump (133 bytes), and the persisted leaf alone writes zero
bytes and reports its existing offset 5. -/
theorem C6_onlyMutated_witness :
    (leafBytes false [leafValue.mk [2] [9] 4 0] ++
      innerOwnBytes true
        [GoNode.leaf [leafValue.mk [1] [9] 4 0] true 5 [1] 4,
         GoNode.leaf [leafValue.mk [2] [9] 4 0] true 0 [2] 4]).length ≤
    (leafBytes false [leafValue.mk [1] [9] 4 0] ++
      leafBytes false [leafValue.mk [2] [9] 4 0] ++
      innerOwnBytes true
        [GoNode.leaf [leafValue.mk [1] [9] 4 0] true 5 [1] 4,
         GoNode.leaf [leafValue.mk [2] [9] 4 0] true 0 [2] 4]).length ∧
    GoNode.writeTo (GoNode.leaf [leafValue.mk [1] [9] 4 0] true 5 [1] 4) false
        (WriteOpts.mk true 0 false)
      = .ok (GoNode.leaf [leafValue.mk [1] [9] 4 0] true 5 [1] 4, 5, 0, []) := by
  have hT : GoNode.writeTo
      (GoNode.inner
        [GoNode.leaf [leafValue.mk [1] [9] 4 0] true 5 [1] 4,
         GoNode.leaf [leafValue.mk [2] [9] 4 0] true 0 [2] 4] true 0 [2] 4) true
      (WriteOpts.mk true 0 false)
    = .ok (GoNode.inner
        [GoNode.leaf [leafValue.mk [1] [9] 4 0] true 5 [1] 4,
         GoNode.leaf [leafValue.mk [2] [9] 4 0] true 0 [2] 4] true 0 [2] 4, 35, 98,
      leafBytes false [leafValue.mk [2] [9] 4 0] ++
        innerOwnBytes true
          [GoNode.leaf [leafValue.mk [1] [9] 4 0] true 5 [1] 4,
           GoNode.leaf [leafValue.mk [2] [9] 4 0] true 0 [2] 4]) := by rfl
  have hF : GoNode.writeTo
      (GoNode.inner
        [GoNode.leaf [leafValue.mk [1] [9] 4 0] true 5 [1] 4,
         GoNode.leaf [leafValue.mk [2] [9] 4 0] true 0 [2] 4] true 0 [2] 4) true
      (WriteOpts.mk false 0 false)
    = .ok (GoNode.inner
        [GoNode.leaf [leafValue.mk [1] [9] 4 0] true 5 [1] 4,
         GoNode.leaf [leafValue.mk [2] [9] 4 0] true 0 [2] 4] true 0 [2] 4, 70, 133,
      leafBytes false [leafValue.mk [1] [9] 4 0] ++
        leafBytes false [leafValue.mk [2] [9] 4 0] ++
        innerOwnBytes true
          [GoNode.leaf [leafValue.mk [1] [9] 4 0] true 5 [1] 4,
           GoNode.leaf [leafValue.mk [2] [9] 4 0] true 0 [2] 4]) := by rfl
  refine ⟨(C6_onlyMutated_writes_no_more
      (GoNode.inner
        [GoNode.leaf [leafValue.mk [1] [9] 4 0] true 5 [1] 4,
         GoNode.leaf [leafValue.mk [2] [9] 4 0] true 0 [2] 4] true 0 [2] 4)).1
      true 0 false 0 false _ _ _ _ _ _ _ _ hT hF, ?_⟩
  exact (C6_onlyMutated_writes_no_more
      (GoNode.leaf [leafValue.mk [1] [9] 4 0] true 5 [1] 4)).2 false
      (WriteOpts.mk true 0 false) rfl (by decide) rfl

/-- C9: every successful `writeTo` preserves all node state except
offsets (erasing offsets yields the same graph); with `CommitLog=false`
nothing at all is mutated (the updated graph is the original); with
`CommitLog=true` a leaf that is actually written gets offset
`BaseOffset` and an inner node gets offset `BaseOffset` plus the bytes
its children handed to the sink. -/
theorem C9_commitLog_offset_update :
    (∀ n a opts n2 o tw bs, GoNode.writeTo n a opts = .ok (n2, o, tw, bs) →
      GoNode.eraseOff n2 = GoNode.eraseOff n) ∧
    (∀ n a opts n2 o tw bs, opts.CommitLog = false →
      GoNode.writeTo n a opts = .ok (n2, o, tw, bs) → n2 = n) ∧
    (∀ vs mf off mk tv a opts n2 o tw bs, opts.CommitLog = true →
      (opts.OnlyMutated && decide (off > 0)) = false →
      GoNode.writeTo (.leaf vs mf off mk tv) a opts = .ok (n2, o, tw, bs) →
      GoNode.offset n2 = opts.BaseOffset) ∧
    (∀ cs mf off mk tv a opts n2 o tw bs, opts.CommitLog = true →
      (opts.OnlyMutated && decide (off > 0)) = false →
      GoNode.writeTo (.inner cs mf off mk tv) a opts = .ok (n2, o, tw, bs) →
      ∃ childBytes : Nat,
        GoNode.offset n2 = opts.BaseOffset + childBytes ∧
        bs.length = childBytes + innerSize cs + (if a then 4 else 0)) := by
  refine ⟨fun n a opts n2 o tw bs h => writeTo_eraseOff n a opts n2 o tw bs h,
    fun n a opts n2 o tw bs hCL h => writeTo_nocommit n a opts n2 o tw bs hCL h,
    fun vs mf off mk tv a opts n2 o tw bs hCL hg h => ?_,
    fun cs mf off mk tv a opts n2 o tw bs hCL hg h => ?_⟩
  · rw [writeTo_leaf_go vs mf off mk tv a opts hg] at h
    simp only [Except.ok.injEq, Prod.mk.injEq] at h
    obtain ⟨hn, -, -, -⟩ := h
    rw [← hn]
    simp [GoNode.offset, hCL]
  · cases hw : writeChildren cs opts 0 with
    | error e => rw [writeTo_inner_err cs mf off mk tv a opts e hg hw] at h; cases h
    | ok r =>
      obtain ⟨cs2, cw, cbs⟩ := r
      rw [writeTo_inner_ok cs mf off mk tv a opts cs2 cw cbs hg hw] at h
      simp only [Except.ok.injEq, Prod.mk.injEq] at h
      obtain ⟨hn, -, -, hbs⟩ := h
      have hcw : cw = 0 + (cbs.length : Int) :=
        writeChildren_cw_eq_length cs opts 0 cs2 cw cbs hw
      have hsz : innerSize cs2 = innerSize cs := writeChildren_innerSize cs opts 0 cs2 cw cbs hw
      refine ⟨cbs.length, ?_, ?_⟩
      · rw [← hn]
        simp only [GoNode.offset, hCL, if_true]
        omega
      · rw [← hbs]
        simp only [List.length_append, innerOwnBytes_length, hsz]
        omega

/-- C9 witness: writing a one-leaf tree with `CommitLog=true` at base
offset 5 lands the leaf at offset 5 and the inner node at 5 + 35; the
same write with `CommitLog=false` leaves the graph untouched; both modes
change nothing except offsets. -/
theorem C9_commitLog_witness :
    GoNode.offset (GoNode.leaf [leafValue.mk [7] [8] 3 2] true 5 [7] 3) = 5 ∧
    (GoNode.inner [GoNode.leaf [leafValue.mk [7] [8] 3 2] true 0 [7] 3] true 0 [7] 3
      = GoNode.inner [GoNode.leaf [leafValue.mk [7] [8] 3 2] true 0 [7] 3] true 0 [7] 3) ∧
    GoNode.eraseOff (GoNode.inner [GoNode.leaf [leafValue.mk [7] [8] 3 2] true 5 [7] 3]
        true 40 [7] 3)
      = GoNode.eraseOff (GoNode.inner [GoNode.leaf [leafValue.mk [7] [8] 3 2] true 0 [7] 3]
        true 0 [7] 3) := by
  have h1 : GoNode.writeTo (GoNode.leaf [leafValue.mk [7] [8] 3 2] true 0 [7] 3) false
      (WriteOpts.mk false 5 true)
    = .ok (GoNode.leaf [leafValue.mk [7] [8] 3 2] true 5 [7] 3, 5, 35,
        leafBytes false [leafValue.mk [7] [8] 3 2]) := by rfl
  have h2 : GoNode.writeTo
      (GoNode.inner [GoNode.leaf [leafValue.mk [7] [8] 3 2] true 0 [7] 3] true 0 [7] 3) true
      (WriteOpts.mk false 5 false)
    = .ok (GoNode.inner [GoNode.leaf [leafValue.mk [7] [8] 3 2] true 0 [7] 3] true 0 [7] 3,
        40, 73,
        leafBytes false [leafValue.mk [7] [8] 3 2] ++
          innerOwnBytes true [GoNode.leaf [leafValue.mk [7] [8] 3 2] true 0 [7] 3]) := by rfl
  have h3 : GoNode.writeTo
      (GoNode.inner [GoNode.leaf [leafValue.mk [7] [8] 3 2] true 0 [7] 3] true 0 [7] 3) true
      (WriteOpts.mk false 5 true)
    = .ok (GoNode.inner [GoNode.leaf [leafValue.mk [7] [8] 3 2] true 5 [7] 3] true 40 [7] 3,
        40, 73,
        leafBytes false [leafValue.mk [7] [8] 3 2] ++
          innerOwnBytes true [GoNode.leaf [leafValue.mk [7] [8] 3 2] true 5 [7] 3]) := by rfl
  refine ⟨?_, ?_, ?_⟩
  · have := C9_commitLog_offset_update.2.2.1 [leafValue.mk [7] [8] 3 2] true 0 [7] 3 false
      (WriteOpts.mk false 5 true) _ _ _ _ rfl (by decide) h1
    simpa using this
  · exact C9_commitLog_offset_update.2.1
      (GoNode.inner [GoNode.leaf [leafValue.mk [7] [8] 3 2] true 0 [7] 3] true 0 [7] 3) true
      (WriteOpts.mk false 5 false) _ _ _ _ rfl h2
  · exact C9_commitLog_offset_update.1
      (GoNode.inner [GoNode.leaf [leafValue.mk [7] [8] 3 2] true 0 [7] 3] true 0 [7] 3) true
      (WriteOpts.mk false 5 true) _ _ _ _ h3

/-- C10: the persisted test is strictly `offset > 0` — an inner or leaf
node with offset ≤ 0 is rewritten even under `OnlyMutated` (non-empty
bytes reach the sink); a `nodeRef` under `OnlyMutated` is skipped exactly
when it is unresolved or its resolved node's offset is > 0, in which case
the ref's stored offset is reported with zero bytes and the node store is
never consulted (even an unresolved ref succeeds); a ref resolved to a
node with offset ≤ 0 delegates to the resolved node's own write. -/
theorem C10_persisted_test_and_ref_skip :
    (∀ cs mf off mk tv a opts n2 o tw bs, opts.OnlyMutated = true → off ≤ 0 →
      GoNode.writeTo (GoNode.inner cs mf off mk tv) a opts = .ok (n2, o, tw, bs) →
      bs ≠ []) ∧
    (∀ vs mf off mk tv a opts n2 o tw bs, opts.OnlyMutated = true → off ≤ 0 →
      GoNode.writeTo (GoNode.leaf vs mf off mk tv) a opts = .ok (n2, o, tw, bs) →
      bs ≠ []) ∧
    (∀ res off mk tv sz a opts, opts.OnlyMutated = true →
      (res = none ∨ ∃ nd, res = some nd ∧ GoNode.offset nd > 0) →
      GoNode.writeTo (GoNode.ref res off mk tv sz) a opts
        = .ok (GoNode.ref res off mk tv sz, off, 0, [])) ∧
    (∀ nd off mk tv sz a opts, opts.OnlyMutated = true → GoNode.offset nd ≤ 0 →
      GoNode.writeTo (GoNode.ref (some nd) off mk tv sz) a opts
        = match GoNode.writeTo nd a opts with
          | .error e => .error e
          | .ok (nd2, o, w, bs) => .ok (GoNode.ref (some nd2) off mk tv sz, o, w, bs)) := by
  refine ⟨fun cs mf off mk tv a opts n2 o tw bs hOM hoff h => ?_,
    fun vs mf off mk tv a opts n2 o tw bs hOM hoff h => ?_,
    fun res off mk tv sz a opts hOM hc => ?_,
    fun nd off mk tv sz a opts hOM hoff => ?_⟩
  · have hg : (opts.OnlyMutated && decide (off > 0)) = false := by
      simp [hOM]; omega
    cases hw : writeChildren cs opts 0 with
    | error e => rw [writeTo_inner_err cs mf off mk tv a opts e hg hw] at h; cases h
    | ok r =>
      obtain ⟨cs2, cw, cbs⟩ := r
      rw [writeTo_inner_ok cs mf off mk tv a opts cs2 cw cbs hg hw] at h
      simp only [Except.ok.injEq, Prod.mk.injEq] at h
      obtain ⟨-, -, -, hbs⟩ := h
      have : 0 < bs.length := by
        rw [← hbs]
        simp only [List.length_append, innerOwnBytes_length, innerSize]
        omega
      exact List.ne_nil_of_length_pos this
  · have hg : (opts.OnlyMutated && decide (off > 0)) = false := by
      simp [hOM]; omega
    rw [writeTo_leaf_go vs mf off mk tv a opts hg] at h
    simp only [Except.ok.injEq, Prod.mk.injEq] at h
    obtain ⟨-, -, -, hbs⟩ := h
    have : 0 < bs.length := by
      rw [← hbs]
      simp only [leafBytes_length, leafSize]
      omega
    exact List.ne_nil_of_length_pos this
  · have hg : (opts.OnlyMutated && refSkip res) = true := by
      rcases hc with hc | ⟨nd, hc, hnd⟩
      · rw [hc]; simp [hOM, refSkip]
      · rw [hc]; simp [hOM, refSkip, hnd]
    exact writeTo_ref_skip res off mk tv sz a opts hg
  · have hg : (opts.OnlyMutated && refSkip (some nd)) = false := by
      simp [hOM, refSkip]; omega
    exact writeTo_ref_some nd off mk tv sz a opts hg

/-- C10 witness: a concrete leaf with offset 0 is rewritten under
`OnlyMutated` (its bytes are non-empty); an unresolved ref with stored
offset 11 is skipped and reports 11 with zero bytes; a ref resolved to a
persisted node (offset 5) is likewise skipped; a ref resolved to an
unpersisted leaf delegates and writes the leaf's record. -/
theorem C10_persisted_test_witness :
    leafBytes false [leafValue.mk [7] [8] 3 2] ≠ [] ∧
    GoNode.writeTo (GoNode.ref none 11 [7] 3 35) false (WriteOpts.mk true 0 false)
      = .ok (GoNode.ref none 11 [7] 3 35, 11, 0, []) ∧
    GoNode.writeTo
        (GoNode.ref (some (GoNode.leaf [leafValue.mk [7] [8] 3 2] true 5 [7] 3)) 11 [7] 3 35)
        false (WriteOpts.mk true 0 false)
      = .ok (GoNode.ref (some (GoNode.leaf [leafValue.mk [7] [8] 3 2] true 5 [7] 3))
          11 [7] 3 35, 11, 0, []) ∧
    GoNode.writeTo
        (GoNode.ref (some (GoNode.leaf [leafValue.mk [7] [8] 3 2] true 0 [7] 3)) 11 [7] 3 35)
        false (WriteOpts.mk true 0 false)
      = .ok (GoNode.ref (some (GoNode.leaf [leafValue.mk [7] [8] 3 2] true 0 [7] 3))
          11 [7] 3 35, 0, 35, leafBytes false [leafValue.mk [7] [8] 3 2]) := by
  have h1 : GoNode.writeTo (GoNode.leaf [leafValue.mk [7] [8] 3 2] true 0 [7] 3) false
      (WriteOpts.mk true 0 false)
    = .ok (GoNode.leaf [leafValue.mk [7] [8] 3 2] true 0 [7] 3, 0, 35,
        leafBytes false [leafValue.mk [7] [8] 3 2]) := by rfl
  refine ⟨?_, ?_, ?_, ?_⟩
  · exact C10_persisted_test_and_ref_skip.2.1 [leafValue.mk [7] [8] 3 2] true 0 [7] 3 false
      (WriteOpts.mk true 0 false) _ _ _ _ rfl (by decide) h1
  · exact C10_persisted_test_and_ref_skip.2.2.1 none 11 [7] 3 35 false
      (WriteOpts.mk true 0 false) rfl (Or.inl rfl)
  · exact C10_persisted_test_and_ref_skip.2.2.1
      (some (GoNode.leaf [leafValue.mk [7] [8] 3 2] true 5 [7] 3)) 11 [7] 3 35 false
      (WriteOpts.mk true 0 false) rfl
      (Or.inr ⟨GoNode.leaf [leafValue.mk [7] [8] 3 2] true 5 [7] 3, rfl, by decide⟩)
  · have h4 := C10_persisted_test_and_ref_skip.2.2.2
      (GoNode.leaf [leafValue.mk [7] [8] 3 2] true 0 [7] 3) 11 [7] 3 35 false
      (WriteOpts.mk true 0 false) rfl (by decide)
    rw [h4, h1]

/-- C8: a leaf node that is actually serialized emits exactly the
one-byte tag (`LeafNodeType`, or `RootLeafNodeType` as root), the 4-byte
big-endian size, the 4-byte big-endian entry count, then per entry
`keyLen(4B) | keyBytes | valueLen(4B) | valueBytes | ts(8B) |
prevTs(8B)` in order (and, as root, the trailing size mirror). -/
theorem C8_leaf_record_layout (vs : List leafValue) (mf : Bool) (off : Int) (mk : List Nat)
    (tv : Nat) (a : Bool) (opts : WriteOpts) (n2 : GoNode) (o tw : Int) (bs : List Nat)
    (hg : (opts.OnlyMutated && decide (off > 0)) = false)
    (h : GoNode.writeTo (GoNode.leaf vs mf off mk tv) a opts = .ok (n2, o, tw, bs)) :
    bs = (if a then RootLeafNodeType else LeafNodeType) ::
      (be32 (leafSize vs) ++ be32 vs.length ++ (vs.map leafEntryRecord).flatten ++
       (if a then be32 (leafSize vs) else [])) := by
  rw [writeTo_leaf_go vs mf off mk tv a opts hg] at h
  simp only [Except.ok.injEq, Prod.mk.injEq] at h
  obtain ⟨-, -, -, hbs⟩ := h
  rw [← hbs, leafBytes_eq]

/-- C8 witness: the concrete root serialization of a one-entry leaf is
tag 3, size 35, count 1, then the entry record, then the size mirror. -/
theorem C8_leaf_record_layout_witness :
    leafBytes true [leafValue.mk [7] [8] 3 2]
      = RootLeafNodeType ::
        (be32 (leafSize [leafValue.mk [7] [8] 3 2]) ++ be32 1 ++
         ([leafValue.mk [7] [8] 3 2].map leafEntryRecord).flatten ++
         be32 (leafSize [leafValue.mk [7] [8] 3 2])) := by
  have h1 : GoNode.writeTo (GoNode.leaf [leafValue.mk [7] [8] 3 2] true 0 [7] 3) true
      (WriteOpts.mk false 0 false)
    = .ok (GoNode.leaf [leafValue.mk [7] [8] 3 2] true 0 [7] 3, 0, 39,
        leafBytes true [leafValue.mk [7] [8] 3 2]) := by rfl
  have h := C8_leaf_record_layout [leafValue.mk [7] [8] 3 2] true 0 [7] 3 true
    (WriteOpts.mk false 0 false) _ _ _ _ rfl h1
  simpa using h

/-- C7: every non-ref node serialized as root (and not skipped under
`OnlyMutated`) emits a record whose 4 bytes right after the root tag and
whose last 4 bytes are the same big-endian size field — the leading size
equals the trailing size. -/
theorem C7_root_size_mirror (n : GoNode) (opts : WriteOpts) (n2 : GoNode) (o tw : Int)
    (bs : List Nat) (href : GoNode.isRef n = false)
    (hg : (opts.OnlyMutated && decide (GoNode.offset n > 0)) = false)
    (h : GoNode.writeTo n true opts = .ok (n2, o, tw, bs)) :
    ∃ pre t mid, bs = pre ++ t :: (be32 (GoNode.size n) ++ mid ++ be32 (GoNode.size n)) ∧
      (t = RootInnerNodeType ∨ t = RootLeafNodeType) := by
  cases n with
  | inner cs mf off mk tv =>
    simp only [GoNode.offset] at hg
    cases hw : writeChildren cs opts 0 with
    | error e => rw [writeTo_inner_err cs mf off mk tv true opts e hg hw] at h; cases h
    | ok r =>
      obtain ⟨cs2, cw, cbs⟩ := r
      rw [writeTo_inner_ok cs mf off mk tv true opts cs2 cw cbs hg hw] at h
      simp only [Except.ok.injEq, Prod.mk.injEq] at h
      obtain ⟨-, -, -, hbs⟩ := h
      have hsz : innerSize cs2 = innerSize cs := writeChildren_innerSize cs opts 0 cs2 cw cbs hw
      refine ⟨cbs, RootInnerNodeType, be32 cs2.length ++ (cs2.map writeNodeRefTo).flatten,
        ?_, Or.inl rfl⟩
      rw [← hbs, innerOwnBytes_eq, hsz]
      simp [GoNode.size, List.append_assoc]
  | leaf vs mf off mk tv =>
    simp only [GoNode.offset] at hg
    rw [writeTo_leaf_go vs mf off mk tv true opts hg] at h
    simp only [Except.ok.injEq, Prod.mk.injEq] at h
    obtain ⟨-, -, -, hbs⟩ := h
    refine ⟨[], RootLeafNodeType, be32 vs.length ++ (vs.map leafEntryRecord).flatten,
      ?_, Or.inr rfl⟩
    rw [← hbs, leafBytes_eq]
    simp [GoNode.size, List.append_assoc]
  | ref res off mk tv sz => simp [GoNode.isRef] at href

/-- C7 witness: the one-entry leaf root record carries the same size
field right after the tag and as its last 4 bytes. -/
theorem C7_root_size_mirror_witness :
    ∃ pre t mid, leafBytes true [leafValue.mk [7] [8] 3 2]
      = pre ++ t ::
        (be32 (GoNode.size (GoNode.leaf [leafValue.mk [7] [8] 3 2] true 0 [7] 3)) ++ mid ++
         be32 (GoNode.size (GoNode.leaf [leafValue.mk [7] [8] 3 2] true 0 [7] 3))) ∧
      (t = RootInnerNodeType ∨ t = RootLeafNodeType) := by
  have h1 : GoNode.writeTo (GoNode.leaf [leafValue.mk [7] [8] 3 2] true 0 [7] 3) true
      (WriteOpts.mk false 0 false)
    = .ok (GoNode.leaf [leafValue.mk [7] [8] 3 2] true 0 [7] 3, 0, 39,
        leafBytes true [leafValue.mk [7] [8] 3 2]) := by rfl
  exact C7_root_size_mirror (GoNode.leaf [leafValue.mk [7] [8] 3 2] true 0 [7] 3)
    (WriteOpts.mk false 0 false) _ _ _ _ rfl rfl h1

/-- C3 counterexample: with `CommitLog=false` and base offset 5, the
unpersisted leaf child is written at stream offset 5 (the child's write
returns landing offset 5), but the parent's child reference record
stores the child's unchanged offset field 0 — `be64 0`, not `be64 5` —
so the recorded childOffset is not the offset at which the child was
just written. -/
theorem C3_child_offset_stale_counterexample :
    GoNode.writeTo (GoNode.leaf [leafValue.mk [7] [8] 3 2] true 0 [7] 3) false
        (WriteOpts.mk false 5 false)
      = .ok (GoNode.leaf [leafValue.mk [7] [8] 3 2] true 0 [7] 3, 5, 35,
          leafBytes false [leafValue.mk [7] [8] 3 2]) ∧
    GoNode.writeTo
        (GoNode.inner [GoNode.leaf [leafValue.mk [7] [8] 3 2] true 0 [7] 3] true 0 [7] 3)
        true (WriteOpts.mk false 5 false)
      = .ok (GoNode.inner [GoNode.leaf [leafValue.mk [7] [8] 3 2] true 0 [7] 3] true 0 [7] 3,
          40, 73,
          leafBytes false [leafValue.mk [7] [8] 3 2] ++
            innerOwnBytes true [GoNode.leaf [leafValue.mk [7] [8] 3 2] true 0 [7] 3]) ∧
    innerOwnBytes true [GoNode.leaf [leafValue.mk [7] [8] 3 2] true 0 [7] 3]
      = RootInnerNodeType ::
        (be32 34 ++ be32 1 ++
         (be32 1 ++ [7] ++ be64 3 ++ be32 35 ++ be64 0) ++ be32 34) ∧
    be64 0 ≠ be64 5 := by
  refine ⟨rfl, rfl, ?_, by decide⟩
  rw [innerOwnBytes_eq]
  rfl

/-- C3 (amended): the emitted stream of an inner node contains, after
the children's bytes, exactly one child reference record per child entry
laid out as `maxKeyLen(4B) | maxKeyBytes | commitTimestamp(8B) |
childSize(4B) | childOffset(8B)`, built from the child's state after the
child pass (the pass that skips unmutated children and writes the rest
at `BaseOffset` advanced by the bytes written so far); the recorded
childOffset is the child's in-memory offset field, which for a written
non-ref child under `CommitLog=true` equals the landing offset the
child's write returned, and for a non-ref child skipped as already
persisted equals its existing durable offset; with `CommitLog=false` the
offsets returned by the child writes are discarded and the pre-call
field is recorded. -/
theorem C3_child_reference_records :
    (∀ cs mf off mk tv a opts n2 o tw bs,
      (opts.OnlyMutated && decide (off > 0)) = false →
      GoNode.writeTo (GoNode.inner cs mf off mk tv) a opts = .ok (n2, o, tw, bs) →
      ∃ cs2 cbs,
        n2 = GoNode.inner cs2 mf (if opts.CommitLog then o else off) mk tv ∧
        bs = cbs ++ ((if a then RootInnerNodeType else InnerNodeType) ::
          (be32 (innerSize cs2) ++ be32 cs2.length ++ (cs2.map writeNodeRefTo).flatten ++
           (if a then be32 (innerSize cs2) else []))) ∧
        cs2.length = cs.length ∧
        ChildPass opts 0 cs cs2 cbs) ∧
    (∀ c a2 opts2 c2 o2 tw2 bs2, GoNode.writeTo c a2 opts2 = .ok (c2, o2, tw2, bs2) →
      (opts2.CommitLog = true → GoNode.isRef c = false → GoNode.offset c2 = o2) ∧
      ((opts2.OnlyMutated && decide (GoNode.offset c > 0)) = true → GoNode.isRef c = false →
        c2 = c ∧ o2 = GoNode.offset c)) := by
  constructor
  · intro cs mf off mk tv a opts n2 o tw bs hg h
    cases hw : writeChildren cs opts 0 with
    | error e => rw [writeTo_inner_err cs mf off mk tv a opts e hg hw] at h; cases h
    | ok r =>
      obtain ⟨cs2, cw, cbs⟩ := r
      rw [writeTo_inner_ok cs mf off mk tv a opts cs2 cw cbs hg hw] at h
      simp only [Except.ok.injEq, Prod.mk.injEq] at h
      obtain ⟨hn, ho, -, hbs⟩ := h
      refine ⟨cs2, cbs, ?_, ?_, ?_, writeChildren_childPass cs opts 0 cs2 cw cbs hw⟩
      · rw [← hn, ← ho]
      · rw [← hbs, innerOwnBytes_eq]
      · have he := writeChildren_eraseOffList cs opts 0 cs2 cw cbs hw
        have := congrArg List.length he
        simpa [length_eraseOffList] using this
  · intro c a2 opts2 c2 o2 tw2 bs2 h
    cases c with
    | inner cs mf off mk tv =>
      by_cases hg : (opts2.OnlyMutated && decide (off > 0)) = true
      · rw [writeTo_inner_skip cs mf off mk tv a2 opts2 hg] at h
        simp only [Except.ok.injEq, Prod.mk.injEq] at h
        obtain ⟨hn, ho, -, -⟩ := h
        refine ⟨fun _ _ => ?_, fun _ _ => ⟨hn.symm, ho.symm⟩⟩
        rw [← hn, ← ho]
        rfl
      · have hg' := eq_false_of_ne_true hg
        refine ⟨fun hCL _ => ?_, fun hgt _ => absurd hgt hg⟩
        cases hw : writeChildren cs opts2 0 with
        | error e => rw [writeTo_inner_err cs mf off mk tv a2 opts2 e hg' hw] at h; cases h
        | ok r =>
          obtain ⟨cs2, cw, cbs⟩ := r
          rw [writeTo_inner_ok cs mf off mk tv a2 opts2 cs2 cw cbs hg' hw] at h
          simp only [Except.ok.injEq, Prod.mk.injEq] at h
          obtain ⟨hn, ho, -, -⟩ := h
          rw [← hn, ← ho]
          simp [GoNode.offset, hCL]
    | leaf vs mf off mk tv =>
      by_cases hg : (opts2.OnlyMutated && decide (off > 0)) = true
      · rw [writeTo_leaf_skip vs mf off mk tv a2 opts2 hg] at h
        simp only [Except.ok.injEq, Prod.mk.injEq] at h
        obtain ⟨hn, ho, -, -⟩ := h
        refine ⟨fun _ _ => ?_, fun _ _ => ⟨hn.symm, ho.symm⟩⟩
        rw [← hn, ← ho]
        rfl
      · have hg' := eq_false_of_ne_true hg
        refine ⟨fun hCL _ => ?_, fun hgt _ => absurd hgt hg⟩
        rw [writeTo_leaf_go vs mf off mk tv a2 opts2 hg'] at h
        simp only [Except.ok.injEq, Prod.mk.injEq] at h
        obtain ⟨hn, ho, -, -⟩ := h
        rw [← hn, ← ho]
        simp [GoNode.offset, hCL]
    | ref res off mk tv sz =>
      exact ⟨fun _ href => by simp [GoNode.isRef] at href,
        fun _ href => by simp [GoNode.isRef] at href⟩

/-- C3 witness: under `CommitLog=true` the written leaf child's offset
field equals the landing offset 5 the child's write returned, and the
concrete parent serialization carries exactly one reference record per
child, built from the updated child. -/
theorem C3_child_reference_records_witness :
    GoNode.offset (GoNode.leaf [leafValue.mk [7] [8] 3 2] true 5 [7] 3) = 5 ∧
    ∃ cs2 cbs,
      GoNode.inner [GoNode.leaf [leafValue.mk [7] [8] 3 2] true 5 [7] 3] true 40 [7] 3
        = GoNode.inner cs2 true (if true then (40 : Int) else 0) [7] 3 ∧
      leafBytes false [leafValue.mk [7] [8] 3 2] ++
          innerOwnBytes true [GoNode.leaf [leafValue.mk [7] [8] 3 2] true 5 [7] 3]
        = cbs ++ (RootInnerNodeType ::
          (be32 (innerSize cs2) ++ be32 cs2.length ++ (cs2.map writeNodeRefTo).flatten ++
           be32 (innerSize cs2))) ∧
      cs2.length = 1 ∧
      ChildPass (WriteOpts.mk false 5 true) 0
        [GoNode.leaf [leafValue.mk [7] [8] 3 2] true 0 [7] 3] cs2 cbs := by
  have h1 : GoNode.writeTo (GoNode.leaf [leafValue.mk [7] [8] 3 2] true 0 [7] 3) false
      (WriteOpts.mk false 5 true)
    = .ok (GoNode.leaf [leafValue.mk [7] [8] 3 2] true 5 [7] 3, 5, 35,
        leafBytes false [leafValue.mk [7] [8] 3 2]) := by rfl
  have h2 : GoNode.writeTo
      (GoNode.inner [GoNode.leaf [leafValue.mk [7] [8] 3 2] true 0 [7] 3] true 0 [7] 3)
      true (WriteOpts.mk false 5 true)
    = .ok (GoNode.inner [GoNode.leaf [leafValue.mk [7] [8] 3 2] true 5 [7] 3] true 40 [7] 3,
        40, 73,
        leafBytes false [leafValue.mk [7] [8] 3 2] ++
          innerOwnBytes true [GoNode.leaf [leafValue.mk [7] [8] 3 2] true 5 [7] 3]) := by rfl
  constructor
  · exact (C3_child_reference_records.2
      (GoNode.leaf [leafValue.mk [7] [8] 3 2] true 0 [7] 3) false
      (WriteOpts.mk false 5 true) _ _ _ _ h1).1 rfl rfl
  · have h3 := C3_child_reference_records.1
      [GoNode.leaf [leafValue.mk [7] [8] 3 2] true 0 [7] 3] true 0 [7] 3 true
      (WriteOpts.mk false 5 true) _ _ _ _ rfl h2
    simpa using h3
